import Mathlib

/-!
Verification development for the split-spaced-strings extension core
(`src/jsx.ts` and its companion modules).

Document text is modelled as a list of lines, each line a `List Char`
(lines never contain a newline character).  JavaScript strings become
`List Char`; JavaScript numbers that can go negative (tracked-entry
boundary fields mutated by deltas, `indexOf`-style results) become `Int`,
and non-negative editor positions stay `Nat`.  The `-1` sentinel of
JavaScript search helpers is rendered as `Option`.
-/

/-- Whitespace test matching the JavaScript regular-expression class
used throughout the source (space, tab, line terminators, and the
Unicode space characters recognised by ECMAScript). -/
def isWs (c : Char) : Bool :=
  c = ' ' || c = '\t' || c = '\n' || c = '\r' ||
  c.val = 11 || c.val = 12 ||
  c.val = 0xa0 || c.val = 0x1680 ||
  (0x2000 ≤ c.val && c.val ≤ 0x200a) ||
  c.val = 0x2028 || c.val = 0x2029 || c.val = 0x202f ||
  c.val = 0x205f || c.val = 0x3000 || c.val = 0xfeff

/-- JavaScript `String.prototype.trimStart`. -/
def trimStartJS (s : List Char) : List Char := s.dropWhile isWs

/-- JavaScript `String.prototype.trim`: drop whitespace from both ends. -/
def trim (s : List Char) : List Char :=
  ((s.dropWhile isWs).reverse.dropWhile isWs).reverse

/-- Fuel-driven worker for `splitWs`; the fuel only bounds the number of
chunks and is irrelevant as soon as it is at least the input length. -/
def splitWsF : Nat → List Char → List (List Char)
  | 0, s => [s.takeWhile (fun c => !isWs c)]
  | fuel + 1, s =>
    match s.dropWhile (fun c => !isWs c) with
    | [] => [s.takeWhile (fun c => !isWs c)]
    | _ :: rest => s.takeWhile (fun c => !isWs c) :: splitWsF fuel (rest.dropWhile isWs)

/-- JavaScript `s.split(/\s+/)`: cut at maximal whitespace runs.  A
leading run yields a leading empty chunk, a trailing run a trailing
empty chunk, and the empty string yields one empty chunk. -/
def splitWs (s : List Char) : List (List Char) := splitWsF s.length s

/-- JavaScript `s.split('\n')`. -/
def splitNl : List Char → List (List Char)
  | [] => [[]]
  | c :: rest =>
    if c = '\n' then [] :: splitNl rest
    else
      match splitNl rest with
      | [] => [[c]]
      | l :: ls => (c :: l) :: ls

/-- JavaScript `parts.join(' ')`. -/
def joinSpace : List (List Char) → List Char
  | [] => []
  | [w] => w
  | w :: ws => w ++ ' ' :: joinSpace ws

/-- JavaScript `text.startsWith(tok, index)`. -/
def hasPrefixAt (text tok : List Char) (index : Nat) : Bool :=
  decide ((text.drop index).take tok.length = tok)

/-- Scan indices `i, i+1, ...` (at most `fuel` of them) for the first
index satisfying `p`. -/
def findIdxGo (p : Nat → Bool) : Nat → Nat → Option Nat
  | _, 0 => none
  | i, fuel + 1 => if p i then some i else findIdxGo p (i + 1) fuel

/-- First index in `[start, stop)` satisfying `p`. -/
def findIdxInRange (p : Nat → Bool) (start stop : Nat) : Option Nat :=
  findIdxGo p start (stop - start)

/-- JavaScript `text.indexOf(pat, startIndex)` (`none` for `-1`). -/
def indexOfFrom (text pat : List Char) (startIndex : Nat) : Option Nat :=
  findIdxInRange (fun i => hasPrefixAt text pat i) startIndex (text.length + 1)

/-- JavaScript `s.substring(a, b)`: clamp both arguments to the length
and swap them when given out of order. -/
def jsSubstring (s : List Char) (a b : Nat) : List Char :=
  let a' := min a s.length
  let b' := min b s.length
  (s.drop (min a' b')).take (max a' b' - min a' b')

/-- Number of consecutive backslashes immediately before `index`
(the loop of `isEscaped` in the source). -/
def backslashCount (text : List Char) (index : Nat) : Nat :=
  ((text.take index).reverse.takeWhile (fun c => c = '\\')).length

/-- A character position is escaped when an odd number of consecutive
backslashes precedes it (`isEscaped` in `jsx.ts`). -/
def isEscaped (text : List Char) (index : Nat) : Bool :=
  backslashCount text index % 2 == 1

/-- JavaScript `s.lastIndexOf(c)` restricted to single characters. -/
def lastIndexOfChar (s : List Char) (c : Char) : Int :=
  match s.reverse.findIdx? (fun d => d = c) with
  | some k => (s.length : Int) - 1 - k
  | none => -1

/-- A line of a document addressed by index (missing lines read as empty:
the source never reads past `lineCount` without a guard). -/
def lineTextAt (lines : List (List Char)) (i : Nat) : List Char :=
  lines.getD i []

/-- Editor position: zero-based line and column, as `vscode.Position`. -/
structure Pos where
  line : Nat
  character : Nat
deriving DecidableEq

/-- The `StringInfo` record of `jsx.ts` (the located string literal).
The `end` field of the source is called `stop` here (`end` is reserved);
it is exclusive and includes the closing quote token. -/
structure StringInfo where
  start : Pos
  stop : Pos
  quote : List Char
  content : List Char
  isMultiline : Bool
  originalQuote : Option (List Char)
deriving DecidableEq

/-- The read-only parts of a `vscode.TextDocument` used by the core. -/
structure TextDocument where
  languageId : String
  lines : List (List Char)

/-- `document.lineAt(i).text`. -/
def TextDocument.lineAt (document : TextDocument) (i : Nat) : List Char :=
  lineTextAt document.lines i

/-- The `QuoteRules` record of `jsx.ts`. -/
structure QuoteRules where
  multilineQuotes : List (List Char)
  preferredMultilineQuote : List Char
  hasSpecialFeatures : List Char → List Char → Bool
  allowsMultilineInRegularQuotes : Bool

/-- Test for the regular expression matching a dollar sign, an opening
brace, any number of non-closing-brace characters and a closing brace
(template-literal interpolation). -/
def hasInterpJS : List Char → Bool
  | '$' :: '{' :: rest => rest.contains '}'
  | _ :: rest => hasInterpJS rest
  | [] => false

/-- Test for the regular expression matching an opening brace, any
number of non-closing-brace characters and a closing brace. -/
def hasBraceInterp : List Char → Bool
  | '{' :: rest => rest.contains '}'
  | _ :: rest => hasBraceInterp rest
  | [] => false

/-- Test for the regular expression matching a hash sign, an opening
brace, any number of non-closing-brace characters and a closing brace
(Ruby interpolation). -/
def hasHashBraceInterp : List Char → Bool
  | '#' :: '{' :: rest => rest.contains '}'
  | _ :: rest => hasHashBraceInterp rest
  | [] => false

/-- ASCII letter or underscore, the character class after the dollar
sign in the PHP variable regular expression. -/
def isAsciiLetterU (c : Char) : Bool :=
  ('a' ≤ c && c ≤ 'z') || ('A' ≤ c && c ≤ 'Z') || c = '_'

/-- Test for the regular expression matching a dollar sign followed by
an ASCII letter or underscore (PHP variables in strings). -/
def hasPhpVar : List Char → Bool
  | '$' :: c :: rest => isAsciiLetterU c || hasPhpVar (c :: rest)
  | _ :: rest => hasPhpVar rest
  | [] => false

/-- `getQuoteRules` of `jsx.ts`: per-language quote rules, with the
conservative default for unknown languages. -/
def getQuoteRules (languageId : String) : QuoteRules :=
  if languageId = "javascript" ∨ languageId = "typescript" ∨
     languageId = "javascriptreact" ∨ languageId = "typescriptreact" then
    ⟨[['`']], ['`'],
      fun content quote => if quote = ['`'] then hasInterpJS content else false,
      false⟩
  else if languageId = "python" then
    ⟨[['"', '"', '"'], ['\'', '\'', '\'']], ['"', '"', '"'],
      fun content _ => hasBraceInterp content, false⟩
  else if languageId = "csharp" then
    ⟨[['"', '"', '"']], ['"', '"', '"'],
      fun content _ => hasBraceInterp content, false⟩
  else if languageId = "go" then
    ⟨[['`']], ['`'], fun _ _ => false, false⟩
  else if languageId = "ruby" then
    ⟨[['"'], ['\'']], ['"'], fun content _ => hasHashBraceInterp content, true⟩
  else if languageId = "java" then
    ⟨[['"', '"', '"']], ['"', '"', '"'], fun _ _ => false, false⟩
  else if languageId = "kotlin" then
    ⟨[['"', '"', '"']], ['"', '"', '"'],
      fun content _ => hasInterpJS content, false⟩
  else if languageId = "php" then
    ⟨[['"']], ['"'], fun content _ => hasPhpVar content, true⟩
  else
    ⟨[], ['"'], fun _ _ => false, true⟩

/-- The constant `QUOTE_TOKENS` of `jsx.ts`, longest tokens first. -/
def QUOTE_TOKENS : List (List Char) :=
  [['"', '"', '"'], ['\'', '\'', '\''], ['`'], ['"'], ['\'']]

/-- `getQuoteTokens` of `jsx.ts`. -/
def getQuoteTokens : List (List Char) := QUOTE_TOKENS

/-- ECMAScript word character (the class backing the word-boundary
assertions in the `val`/`var` regular expression). -/
def isWordChar (c : Char) : Bool :=
  ('a' ≤ c && c ≤ 'z') || ('A' ≤ c && c ≤ 'Z') || ('0' ≤ c && c ≤ '9') || c = '_'

/-- Test for the regular expression matching `val` or `var` delimited by
word boundaries. -/
def hasValVarWord (s : List Char) : Bool :=
  (List.range s.length).any fun i =>
    (hasPrefixAt s ['v', 'a', 'l'] i || hasPrefixAt s ['v', 'a', 'r'] i) &&
    (i == 0 || !isWordChar (s.getD (i - 1) ' ')) &&
    (decide (s.length ≤ i + 3) || !isWordChar (s.getD (i + 3) ' '))

/-- `resolveLanguageId` of `jsx.ts` (always called with a located
string, so the optional parameter of the source is always present). -/
def resolveLanguageId (document : TextDocument) (stringInfo : StringInfo) : String :=
  if document.languageId ≠ "plaintext" then document.languageId
  else
    let lineText := document.lineAt stringInfo.start.line
    let beforeString := jsSubstring lineText 0 stringInfo.start.character
    if hasValVarWord beforeString then "kotlin" else document.languageId

/-- Tail of `s` ends with an equals sign followed only by whitespace
(the regular expression test closing `isInJSXAttribute`). -/
def endsWithEqWs (s : List Char) : Bool :=
  match s.reverse.dropWhile isWs with
  | '=' :: _ => true
  | _ => false

/-- `isInJSXAttribute` of `jsx.ts` (the heuristic used by the
transformer): inside an open angle-bracket tag and directly after an
attribute assignment. -/
def isInJSXAttribute (document : TextDocument) (position : Pos) : Bool :=
  if document.languageId ≠ "javascriptreact" ∧ document.languageId ≠ "typescriptreact" then
    false
  else
    let lineText := document.lineAt position.line
    let textBeforeCursor := jsSubstring lineText 0 position.character
    let lastOpenBracket := lastIndexOfChar textBeforeCursor '<'
    let lastCloseBracket := lastIndexOfChar textBeforeCursor '>'
    if lastOpenBracket ≤ lastCloseBracket then false
    else
      let tagText := textBeforeCursor.drop lastOpenBracket.toNat
      endsWithEqWs tagText

/-- `getMultilineQuote` of `jsx.ts`. -/
def getMultilineQuote (languageId : String) (originalQuote : List Char)
    (isJSXAttr : Bool) : List Char :=
  if isJSXAttr then originalQuote
  else
    let rules := getQuoteRules languageId
    if rules.multilineQuotes.length = 0 ∨ rules.allowsMultilineInRegularQuotes then
      originalQuote
    else
      rules.preferredMultilineQuote

/-- `shouldRestoreOriginalQuote` of `jsx.ts`.  The source treats a
missing `originalQuote` (and the empty string, which never occurs) as
falsy. -/
def shouldRestoreOriginalQuote (languageId : String) (content : List Char)
    (currentQuote : List Char) (originalQuote : Option (List Char)) : Bool :=
  match originalQuote with
  | none => false
  | some oq =>
    if oq = currentQuote then false
    else if (getQuoteRules languageId).hasSpecialFeatures content currentQuote then false
    else true

/-- `matchQuoteToken` of `jsx.ts`: first token of the candidate list
that occurs literally at `index`. -/
def matchQuoteToken (text : List Char) (index : Nat) : List (List Char) → Option (List Char)
  | [] => none
  | tok :: rest => if hasPrefixAt text tok index then some tok else matchQuoteToken text index rest

/-- `findClosingQuoteInLine` of `jsx.ts`: for a 1-character quote, the
first unescaped occurrence at or after `startIndex`; for longer tokens a
plain `indexOf`.  `none` models the `-1` of the source. -/
def findClosingQuoteInLine (lineText : List Char) (startIndex : Nat) (quote : List Char) : Option Nat :=
  if quote.length = 1 then
    findIdxInRange (fun i => hasPrefixAt lineText quote i && !isEscaped lineText i)
      startIndex lineText.length
  else
    indexOfFrom lineText quote startIndex

/-- The scanning loop of `findSingleLineStringAtCursor`, with explicit
fuel (the source loop advances its index by at least one per iteration,
so `lineText.length + 1` fuel reproduces it exactly). -/
def findSLLoop (lineText : List Char) (lineNum cursorOffset : Nat) : Nat → Nat → Option StringInfo
  | _, 0 => none
  | i, fuel + 1 =>
    if i < lineText.length then
      match matchQuoteToken lineText i getQuoteTokens with
      | none => findSLLoop lineText lineNum cursorOffset (i + 1) fuel
      | some token =>
        if token.length = 1 ∧ isEscaped lineText i then
          findSLLoop lineText lineNum cursorOffset (i + 1) fuel
        else
          match findClosingQuoteInLine lineText (i + token.length) token with
          | none => findSLLoop lineText lineNum cursorOffset (i + token.length) fuel
          | some e =>
            if i < cursorOffset ∧ cursorOffset ≤ e + token.length - 1 then
              some
                { start := ⟨lineNum, i⟩
                  stop := ⟨lineNum, e + token.length⟩
                  quote := token
                  content := jsSubstring lineText (i + token.length) e
                  isMultiline := false
                  originalQuote := none }
            else
              findSLLoop lineText lineNum cursorOffset (e + token.length) fuel
    else none

/-- `findSingleLineStringAtCursor` of `jsx.ts`. -/
def findSingleLineStringAtCursor (document : TextDocument) (position : Pos) : Option StringInfo :=
  let lineText := document.lineAt position.line
  findSLLoop lineText position.line position.character 0 (lineText.length + 1)

/-- The leading-whitespace computation of `splitString`:
`lineText.substring(0, lineText.length - lineText.trimStart().length)`. -/
def lineIndentOf (lineText : List Char) : List Char :=
  jsSubstring lineText 0 (lineText.length - (trimStartJS lineText).length)

/-- The multi-line quote chosen by `splitString` (the token the split
text is wrapped in). -/
def splitQuoteOf (stringInfo : StringInfo) (document : TextDocument) : List Char :=
  let isJSXAttr := isInJSXAttribute document stringInfo.start
  let languageId := resolveLanguageId document stringInfo
  getMultilineQuote languageId stringInfo.quote isJSXAttr

/-- `splitString` of `jsx.ts`: the text replacing the single-line
literal.  The `forEach` accumulation of the source is rendered as a
`flatMap` over the same word list. -/
def splitString (stringInfo : StringInfo) (document : TextDocument) : List Char :=
  let words := splitWs (trim stringInfo.content)
  let lineText := document.lineAt stringInfo.start.line
  let lineIndent := lineIndentOf lineText
  let additionalIndent := [' ', ' ']
  let multilineQuote := splitQuoteOf stringInfo document
  multilineQuote ++ '\n' ::
    (words.flatMap (fun word => lineIndent ++ additionalIndent ++ word ++ ['\n']) ++
      (lineIndent ++ multilineQuote))

/-- The `originalQuote` field after `splitString` ran (the source
mutates `stringInfo.originalQuote` in place when it converts the
quote). -/
def splitOriginalQuote (stringInfo : StringInfo) (document : TextDocument) : Option (List Char) :=
  if splitQuoteOf stringInfo document ≠ stringInfo.quote then some stringInfo.quote
  else stringInfo.originalQuote

/-- The content normalisation performed by `mergeString`: split on
newlines, trim every line, drop blank lines, join with single spaces. -/
def mergedContent (content : List Char) : List Char :=
  joinSpace (((splitNl content).map trim).filter (fun line => !line.isEmpty))

/-- `mergeString` of `jsx.ts`: the single-line replacement text. -/
def mergeString (stringInfo : StringInfo) (document : TextDocument) : List Char :=
  let content := mergedContent stringInfo.content
  let languageId := resolveLanguageId document stringInfo
  let finalQuote :=
    if shouldRestoreOriginalQuote languageId content stringInfo.quote stringInfo.originalQuote then
      stringInfo.originalQuote.getD stringInfo.quote
    else stringInfo.quote
  finalQuote ++ content ++ finalQuote

/-- The multi-line span described by the output of `splitString`: same
start position, the produced quote token, and as content exactly the
text between the two quote tokens of the produced text. -/
def spanOfSplitText (stringInfo : StringInfo) (document : TextDocument) : StringInfo :=
  let q := splitQuoteOf stringInfo document
  let txt := splitString stringInfo document
  { start := stringInfo.start
    stop := ⟨stringInfo.start.line + ((splitNl txt).length - 1),
             (lineIndentOf (document.lineAt stringInfo.start.line)).length + q.length⟩
    quote := q
    content := (txt.drop q.length).take (txt.length - q.length - q.length)
    isMultiline := true
    originalQuote := splitOriginalQuote stringInfo document }

/-- The content fingerprint used by the tracking registry:
`content.trim().replace` of every whitespace run by a single space. -/
def normalizeContent (content : List Char) : List Char :=
  joinSpace (splitWs (trim content))

example :
    findSingleLineStringAtCursor ⟨"typescript", ["const x = \"one two\";".toList]⟩ ⟨0, 15⟩ =
      some ⟨⟨0, 10⟩, ⟨0, 19⟩, ['"'], "one two".toList, false, none⟩ := by decide

example :
    findSingleLineStringAtCursor ⟨"typescript", ["const x = \"one two\";".toList]⟩ ⟨0, 10⟩ =
      none := by decide

example :
    splitString ⟨⟨0, 10⟩, ⟨0, 19⟩, ['"'], "one two".toList, false, none⟩
      ⟨"html", ["const x = \"one two\";".toList]⟩ = "\"\n  one\n  two\n\"".toList := by decide

example :
    splitString ⟨⟨0, 10⟩, ⟨0, 19⟩, ['"'], "one two".toList, false, none⟩
      ⟨"typescript", ["const x = \"one two\";".toList]⟩ = "`\n  one\n  two\n`".toList := by
  decide

example :
    mergeString ⟨⟨0, 10⟩, ⟨3, 1⟩, ['`'], "\n  one\n  two\n".toList, true, some ['"']⟩
      ⟨"typescript", []⟩ = "\"one two\"".toList := by decide

example :
    mergeString ⟨⟨0, 10⟩, ⟨3, 1⟩, ['`'], "\n  o${x}ne\n  two\n".toList, true, some ['"']⟩
      ⟨"typescript", []⟩ = "`o${x}ne two`".toList := by decide

/-- A whitespace-delimited word range on one line (`start`/`end` of the
source; `end` is reserved, so it is `stop` here; `stop` is exclusive). -/
structure WRange where
  start : Nat
  stop : Nat
deriving DecidableEq

/-- Worker for `getWordRanges`: position `i` and the start of the word
currently being scanned, if any. -/
def getWordRangesGo : List Char → Nat → Option Nat → List WRange
  | [], _, none => []
  | [], i, some s => [⟨s, i⟩]
  | c :: rest, i, none =>
    if isWs c then getWordRangesGo rest (i + 1) none
    else getWordRangesGo rest (i + 1) (some i)
  | c :: rest, i, some s =>
    if isWs c then ⟨s, i⟩ :: getWordRangesGo rest (i + 1) none
    else getWordRangesGo rest (i + 1) (some s)

/-- `getWordRanges` of the cursor-mapper module: the maximal
non-whitespace runs of a line. -/
def getWordRanges (lineText : List Char) : List WRange :=
  getWordRangesGo lineText 0 none

/-- A word position inside the trimmed content (`start`, exclusive
`stop`, word index), as built by `getCursorWordPosition`. -/
structure WordPos where
  start : Nat
  stop : Nat
  index : Nat
deriving DecidableEq

/-- The word-index/intra-word-offset pair exchanged between
`getCursorWordPosition` and `calculateNewCursorPosition`. -/
structure WP where
  wordIndex : Nat
  charOffset : Nat
deriving DecidableEq

/-- The word-position construction loop of `getCursorWordPosition`:
sequential `indexOf` searches starting after the previous hit; a missed
word (impossible for words coming from the content itself) is skipped
without advancing. -/
def buildWPGo (content : List Char) : List (List Char) → Nat → Nat → List WordPos
  | [], _, _ => []
  | w :: ws, i, currentPos =>
    match indexOfFrom content w currentPos with
    | some wordIndex =>
      ⟨wordIndex, wordIndex + w.length, i⟩ :: buildWPGo content ws (i + 1) (wordIndex + w.length)
    | none => buildWPGo content ws (i + 1) currentPos

/-- First stored word position whose closed range contains the cursor
offset, with the offset made relative to the word start. -/
def findInWord : List WordPos → Int → Option WP
  | [], _ => none
  | wp :: rest, cursorOffset =>
    if (wp.start : Int) ≤ cursorOffset ∧ cursorOffset ≤ (wp.stop : Int) then
      some ⟨wp.index, (cursorOffset - wp.start).toNat⟩
    else findInWord rest cursorOffset

/-- The between-words snapping loop of the single-line branch of
`getCursorWordPosition`: strictly between two consecutive words, snap to
the numerically closer boundary (ties to the left word). -/
def findBetweenSL (words : List (List Char)) : List WordPos → Int → Option WP
  | wp1 :: wp2 :: rest, cursorOffset =>
    if (wp1.stop : Int) < cursorOffset ∧ cursorOffset < (wp2.start : Int) then
      if cursorOffset - wp1.stop ≤ (wp2.start : Int) - cursorOffset then
        some ⟨wp1.index, (words.getD wp1.index []).length⟩
      else
        some ⟨wp2.index, 0⟩
    else findBetweenSL words (wp2 :: rest) cursorOffset
  | _, _ => none

/-- First range (with running index) whose closed bounds contain the
cursor offset — the in-range loop of the multi-line branch. -/
def findInRangesML : List WRange → Nat → Int → Nat → Option WP
  | [], _, _, _ => none
  | r :: rest, wordCounter, cursorOffset, i =>
    if (r.start : Int) ≤ cursorOffset ∧ cursorOffset ≤ (r.stop : Int) then
      some ⟨wordCounter + i, (cursorOffset - r.start).toNat⟩
    else findInRangesML rest wordCounter cursorOffset (i + 1)

/-- The between-ranges snapping loop of the multi-line branch. -/
def findBetweenML : List WRange → Nat → Int → Nat → Option WP
  | r1 :: r2 :: rest, wordCounter, cursorOffset, i =>
    if (r1.stop : Int) < cursorOffset ∧ cursorOffset < (r2.start : Int) then
      if cursorOffset - r1.stop ≤ (r2.start : Int) - cursorOffset then
        some ⟨wordCounter + i, r1.stop - r1.start⟩
      else
        some ⟨wordCounter + i + 1, 0⟩
    else findBetweenML (r2 :: rest) wordCounter cursorOffset (i + 1)
  | _, _, _, _ => none

/-- Body of the multi-line branch at the cursor's line: the sequence of
attempts of the source (inside a word, before the first word, after the
last word, between words), else `null`. -/
def gcwpAtLine (lineText : List Char) (lineStartChar cursorChar wordCounter : Nat) : Option WP :=
  let ranges := getWordRanges lineText
  if ranges.isEmpty then none
  else
    let cursorOffset : Int := (cursorChar : Int) - (lineStartChar : Int)
    match findInRangesML ranges wordCounter cursorOffset 0 with
    | some wp => some wp
    | none =>
      if cursorOffset < ((ranges.headD ⟨0, 0⟩).start : Int) then
        some ⟨wordCounter, 0⟩
      else
        let lastRange := ranges.getLastD ⟨0, 0⟩
        if (lastRange.stop : Int) < cursorOffset then
          some ⟨wordCounter + ranges.length - 1, lastRange.stop - lastRange.start⟩
        else
          findBetweenML ranges wordCounter cursorOffset 0

/-- The line walk of the multi-line branch of `getCursorWordPosition`:
advance through the span's lines accumulating the word count until the
cursor's line is reached (`remaining` counts the line offsets still to
visit, mirroring the bounded `for` loop of the source). -/
def gcwpMultiLoop (contentLines : List (List Char)) (startLine startChar qlen cursorLine cursorChar : Nat) :
    Nat → Nat → Nat → Option WP
  | 0, _, _ => none
  | remaining + 1, lineOffset, wordCounter =>
    let actualLine := startLine + lineOffset
    let lineText := contentLines.getD lineOffset []
    if actualLine = cursorLine then
      gcwpAtLine lineText (if actualLine = startLine then startChar + qlen else 0)
        cursorChar wordCounter
    else
      gcwpMultiLoop contentLines startLine startChar qlen cursorLine cursorChar
        remaining (lineOffset + 1) (wordCounter + (getWordRanges lineText).length)

/-- `getCursorWordPosition` of the cursor-mapper module. -/
def getCursorWordPosition (stringInfo : StringInfo) (cursorPosition : Pos) : Option WP :=
  let words := (splitWs (trim stringInfo.content)).filter (fun w => !w.isEmpty)
  if !stringInfo.isMultiline then
    let contentStart := stringInfo.start.character + stringInfo.quote.length
    let cursorOffset : Int := (cursorPosition.character : Int) - (contentStart : Int)
    let content := trim stringInfo.content
    let wordPositions := buildWPGo content words 0 0
    match findInWord wordPositions cursorOffset with
    | some wp => some wp
    | none =>
      match findBetweenSL words wordPositions cursorOffset with
      | some wp => some wp
      | none =>
        if !wordPositions.isEmpty ∧ cursorOffset < ((wordPositions.headD ⟨0, 0, 0⟩).start : Int) then
          some ⟨0, 0⟩
        else if !words.isEmpty then
          some ⟨words.length - 1, (words.getLastD []).length⟩
        else none
  else
    let contentLines := splitNl stringInfo.content
    gcwpMultiLoop contentLines stringInfo.start.line stringInfo.start.character
      stringInfo.quote.length cursorPosition.line cursorPosition.character
      (stringInfo.stop.line - stringInfo.start.line + 1) 0 0

/-- The word-line search loop of `calculateNewCursorPosition` when
converting to multi-line: skip blank lines and lines equal to the quote
token, find the line holding the global word index. -/
def calcNewMultiLoop (quoteToken : List Char) (startLine wi off : Nat) :
    List (List Char) → Nat → Nat → Option Pos
  | [], _, _ => none
  | ln :: rest, i, wordCounter =>
    let trimmedLine := trim ln
    if trimmedLine.isEmpty || (!quoteToken.isEmpty && trimmedLine == quoteToken) then
      calcNewMultiLoop quoteToken startLine wi off rest (i + 1) wordCounter
    else
      let ranges := getWordRanges ln
      if ranges.isEmpty then calcNewMultiLoop quoteToken startLine wi off rest (i + 1) wordCounter
      else if wi < wordCounter + ranges.length then
        let range := ranges.getD (wi - wordCounter) ⟨0, 0⟩
        some ⟨startLine + i, range.start + min off (range.stop - range.start)⟩
      else
        calcNewMultiLoop quoteToken startLine wi off rest (i + 1) (wordCounter + ranges.length)

/-- The word-offset accumulation of the single-line direction of
`calculateNewCursorPosition`: every earlier word contributes its length
plus one separating space. -/
def sumEarlierWords (words : List (List Char)) (k : Nat) : Nat :=
  ((words.take k).map (fun w => w.length + 1)).sum

/-- The words of a list joined by a fixed separator `sep` (used to
describe the trimmed content of the text produced by `splitString`:
there the separator is a newline followed by the indentation). -/
def midJoin (sep : List Char) : List (List Char) → List Char
  | [] => []
  | w :: rest => w ++ rest.flatMap (fun v => sep ++ v)

/-- `calculateNewCursorPosition` of the cursor-mapper module. -/
def calculateNewCursorPosition (stringInfo : StringInfo) (newText : List Char)
    (wordPosition : Option WP) (wasMultiline : Bool) : Pos :=
  match wordPosition with
  | none => stringInfo.start
  | some wp =>
    let words := (splitWs (trim stringInfo.content)).filter (fun w => !w.isEmpty)
    if words.length ≤ wp.wordIndex then stringInfo.start
    else
      let targetWord := words.getD wp.wordIndex []
      if !wasMultiline then
        let lines := splitNl newText
        let quoteToken := if lines.length ≠ 0 then trim (lines.headD []) else []
        match calcNewMultiLoop quoteToken stringInfo.start.line wp.wordIndex wp.charOffset lines 0 0 with
        | some p => p
        | none => stringInfo.start
      else
        let contentStart := stringInfo.start.character + stringInfo.quote.length
        let offset := sumEarlierWords words wp.wordIndex + min wp.charOffset targetWord.length
        ⟨stringInfo.start.line, contentStart + offset⟩

example :
    getCursorWordPosition ⟨⟨0, 10⟩, ⟨0, 19⟩, ['"'], "one two".toList, false, none⟩ ⟨0, 16⟩ =
      some ⟨1, 1⟩ := by decide

example :
    getCursorWordPosition ⟨⟨0, 10⟩, ⟨3, 1⟩, ['`'], "\n  one\n  two\n".toList, true, none⟩ ⟨2, 3⟩ =
      some ⟨1, 1⟩ := by decide

example :
    calculateNewCursorPosition ⟨⟨0, 10⟩, ⟨0, 19⟩, ['"'], "one two".toList, false, none⟩
      "`\n  one\n  two\n`".toList (some ⟨1, 1⟩) false = ⟨2, 3⟩ := by decide

example :
    calculateNewCursorPosition ⟨⟨0, 10⟩, ⟨3, 1⟩, ['`'], "\n  one\n  two\n".toList, true, none⟩
      "\"one two\"".toList (some ⟨1, 1⟩) true = ⟨0, 16⟩ := by decide

/-- The `TrackedString` record of `jsx.ts`, without the `uri` field: the
registry is modelled per document (the source keys a map by document
URI and all operations below act on one document's entry list).
Boundary fields are `Int` because the change handler mutates them with
possibly negative deltas. -/
structure TrackedString where
  startLine : Int
  startChar : Int
  endLine : Int
  endChar : Int
  quote : List Char
  content : List Char
  contentHash : List Char
  originalQuote : Option (List Char)
deriving DecidableEq

/-- The boundary-tuple comparison shared by `trackString` (duplicate
removal) and `untrackString` (deletion): same start line/char, same end
line, and same `end.character - quote.length`. -/
def trackKeyMatches (t : TrackedString) (stringInfo : StringInfo) : Bool :=
  t.startLine == (stringInfo.start.line : Int) &&
  t.endLine == (stringInfo.stop.line : Int) &&
  t.startChar == (stringInfo.start.character : Int) &&
  t.endChar == (stringInfo.stop.character : Int) - (stringInfo.quote.length : Int)

/-- The entry pushed by `trackString`. -/
def mkTrackedEntry (stringInfo : StringInfo) : TrackedString :=
  { startLine := (stringInfo.start.line : Int)
    startChar := (stringInfo.start.character : Int)
    endLine := (stringInfo.stop.line : Int)
    endChar := (stringInfo.stop.character : Int) - (stringInfo.quote.length : Int)
    quote := stringInfo.quote
    content := stringInfo.content
    contentHash := normalizeContent stringInfo.content
    originalQuote := stringInfo.originalQuote }

/-- `trackString` of `jsx.ts` (per-document entry list): drop any entry
with the exact same boundary tuple, then append the new entry. -/
def trackString (tracked : List TrackedString) (stringInfo : StringInfo) : List TrackedString :=
  tracked.filter (fun t => !trackKeyMatches t stringInfo) ++ [mkTrackedEntry stringInfo]

/-- `untrackString` of `jsx.ts` (per-document entry list): remove the
entries whose boundary tuple matches. -/
def untrackString (tracked : List TrackedString) (stringInfo : StringInfo) : List TrackedString :=
  tracked.filter (fun t => !trackKeyMatches t stringInfo)

/-- The `direction` parameter of `findQuotePositionInLine`
(`'start' | 'end'` in the source). -/
inductive QuoteDir where
  | start
  | stop
deriving DecidableEq

/-- The `isValid` closure of `findQuotePositionInLine`: inside the line,
the quote occurs literally, and a 1-character quote is not escaped. -/
def fqpIsValid (lineText quote : List Char) (pos : Int) : Bool :=
  let maxPos : Int := (lineText.length : Int) - (quote.length : Int)
  if pos < 0 ∨ maxPos < pos then false
  else if !hasPrefixAt lineText quote pos.toNat then false
  else if quote.length = 1 ∧ isEscaped lineText pos.toNat then false
  else true

/-- The outward search of `findQuotePositionInLine`: offsets
`1, 2, ...` (at most `fuel` of them), left candidate first. -/
def fqpOffsetLoop (lineText quote : List Char) (expectedPos : Int) : Nat → Int → Option Int
  | 0, _ => none
  | fuel + 1, offset =>
    if fqpIsValid lineText quote (expectedPos - offset) then some (expectedPos - offset)
    else if fqpIsValid lineText quote (expectedPos + offset) then some (expectedPos + offset)
    else fqpOffsetLoop lineText quote expectedPos fuel (offset + 1)

/-- `findQuotePositionInLine` of `jsx.ts`: the expected position if
still valid, else the nearest valid position (left first on ties), else
a directional full scan.  `none` models `-1`. -/
def findQuotePositionInLine (lineText quote : List Char) (expectedPos : Int)
    (direction : QuoteDir) : Option Nat :=
  if fqpIsValid lineText quote expectedPos then some expectedPos.toNat
  else
    let limit : Int := max expectedPos ((lineText.length : Int) - expectedPos)
    match fqpOffsetLoop lineText quote expectedPos limit.toNat 1 with
    | some p => some p.toNat
    | none =>
      let maxPos : Int := (lineText.length : Int) - (quote.length : Int)
      match direction with
      | QuoteDir.start =>
        ((List.range (maxPos + 1).toNat).find? (fun i => fqpIsValid lineText quote i))
      | QuoteDir.stop =>
        ((List.range (maxPos + 1).toNat).reverse.find? (fun i => fqpIsValid lineText quote i))

/-- The content-extraction loop shared by the multi-line locator, the
tracking refresh and the live-entry query: concatenate the text between
the quote tokens line by line, inserting a newline after every line but
the last.  `contentStart` is the column just after the opening token,
`eChar` the column of the closing token. -/
def extractContent (lines : List (List Char)) (sLine eLine contentStart eChar : Nat) : List Char :=
  (List.range (eLine + 1 - sLine)).flatMap fun k =>
    let lineNum := sLine + k
    let lineText := lineTextAt lines lineNum
    if lineNum = sLine ∧ lineNum = eLine then jsSubstring lineText contentStart eChar
    else if lineNum = sLine then jsSubstring lineText contentStart lineText.length ++ ['\n']
    else if lineNum = eLine then jsSubstring lineText 0 eChar
    else lineText ++ ['\n']

/-- A text-document change event entry (`range` start/end plus inserted
text). -/
structure ContentChange where
  rangeStart : Pos
  rangeEnd : Pos
  text : List Char
deriving DecidableEq

/-- The `lineDelta` of the change handler:
`change.text.split('\n').length - 1 - (end.line - start.line)`. -/
def lineDeltaOf (change : ContentChange) : Int :=
  ((splitNl change.text).length : Int) - 1 -
    ((change.rangeEnd.line : Int) - (change.rangeStart.line : Int))

/-- The `isSingleLineChange` test of the change handler. -/
def isSingleLineChange (change : ContentChange) : Bool :=
  change.rangeStart.line == change.rangeEnd.line && !(change.text.contains '\n')

/-- The `charDelta` of the change handler. -/
def charDeltaOf (change : ContentChange) : Int :=
  if isSingleLineChange change then
    (change.text.length : Int) - ((change.rangeEnd.character : Int) - (change.rangeStart.character : Int))
  else 0

/-- The `isChangeAfterString` computation of the change handler: the
change sits on the entry's end line and starts strictly after the last
character of the closing quote re-located on the current document (a
failed line read or a failed quote search leaves it `false`). -/
def isChangeAfterStringB (lines : List (List Char)) (change : ContentChange)
    (t : TrackedString) : Bool :=
  if (change.rangeStart.line : Int) == t.endLine && (change.rangeEnd.line : Int) == t.endLine then
    if 0 ≤ t.endLine ∧ t.endLine < (lines.length : Int) then
      let endLineText := lineTextAt lines t.endLine.toNat
      match findQuotePositionInLine endLineText t.quote t.endChar QuoteDir.stop with
      | some endQuotePos =>
        (endQuotePos : Int) + (t.quote.length : Int) - 1 < (change.rangeStart.character : Int)
      | none => false
    else false
  else false

/-- The per-entry boundary update of the change handler (first loop):
line shifts by branch, then the character-delta adjustments, reading the
fields in the mutation order of the source. -/
def applyBoundaryShift (lines : List (List Char)) (change : ContentChange)
    (t : TrackedString) : TrackedString :=
  let lineDelta := lineDeltaOf change
  let isAfter := isChangeAfterStringB lines change t
  let t1 :=
    if (change.rangeEnd.line : Int) < t.startLine then
      { t with startLine := t.startLine + lineDelta, endLine := t.endLine + lineDelta }
    else if isAfter then t
    else if (change.rangeStart.line : Int) ≤ t.endLine ∧ t.startLine ≤ (change.rangeEnd.line : Int) then
      if t.startLine ≤ (change.rangeStart.line : Int) then
        { t with endLine := t.endLine + lineDelta }
      else
        { t with startLine := t.startLine + lineDelta, endLine := t.endLine + lineDelta }
    else t
  if isSingleLineChange change && !isAfter then
    let charDelta := charDeltaOf change
    let t2 :=
      if (change.rangeStart.line : Int) == t1.startLine ∧
         (change.rangeEnd.character : Int) ≤ t1.startChar then
        let t' := { t1 with startChar := t1.startChar + charDelta }
        if t'.startLine == t'.endLine then { t' with endChar := t'.endChar + charDelta } else t'
      else t1
    if (change.rangeStart.line : Int) == t2.endLine ∧
       (change.rangeStart.character : Int) ≤ t2.endChar then
      { t2 with endChar := t2.endChar + charDelta }
    else t2
  else t1

/-- The per-entry refresh of the change handler (second loop): re-locate
both quotes near their recorded columns on the current document,
re-extract the content and refresh the fingerprint; any failure leaves
the entry untouched (`continue`, or the caught `lineAt` error for
negative lines). -/
def refreshEntry (lines : List (List Char)) (t : TrackedString) : TrackedString :=
  if (lines.length : Int) ≤ t.startLine ∨ (lines.length : Int) ≤ t.endLine then t
  else if t.startLine < 0 ∨ t.endLine < 0 then t
  else
    let sLine := t.startLine.toNat
    let eLine := t.endLine.toNat
    match findQuotePositionInLine (lineTextAt lines sLine) t.quote t.startChar QuoteDir.start with
    | none => t
    | some startQuotePos =>
      match findQuotePositionInLine (lineTextAt lines eLine) t.quote t.endChar QuoteDir.stop with
      | none => t
      | some endQuotePos =>
        let content := extractContent lines sLine eLine (startQuotePos + t.quote.length) endQuotePos
        { t with
            startChar := (startQuotePos : Int)
            endChar := (endQuotePos : Int)
            content := content
            contentHash := normalizeContent content }

/-- One entry's full update for one document change: boundary shift then
refresh against the post-change document. -/
def updateTrackedOnChange (lines : List (List Char)) (change : ContentChange)
    (t : TrackedString) : TrackedString :=
  refreshEntry lines (applyBoundaryShift lines change t)

/-- The per-entry body of `findTrackedStringsInDocument`: re-locate the
quotes, re-extract the content, and keep the entry only if it is still
multi-line and its fingerprint still matches. -/
def resolveTrackedString (lines : List (List Char)) (t : TrackedString) : Option StringInfo :=
  if (lines.length : Int) ≤ t.startLine ∨ (lines.length : Int) ≤ t.endLine then none
  else if t.startLine < 0 ∨ t.endLine < 0 then none
  else
    let sLine := t.startLine.toNat
    let eLine := t.endLine.toNat
    match findQuotePositionInLine (lineTextAt lines sLine) t.quote t.startChar QuoteDir.start with
    | none => none
    | some startQuotePos =>
      match findQuotePositionInLine (lineTextAt lines eLine) t.quote t.endChar QuoteDir.stop with
      | none => none
      | some endQuotePos =>
        let content := extractContent lines sLine eLine (startQuotePos + t.quote.length) endQuotePos
        let currentHash := normalizeContent content
        if (decide (sLine ≠ eLine) || content.contains '\n') && currentHash == t.contentHash then
          some
            { start := ⟨sLine, startQuotePos⟩
              stop := ⟨eLine, endQuotePos + t.quote.length⟩
              quote := t.quote
              content := content
              isMultiline := true
              originalQuote := t.originalQuote }
        else none

/-- `findTrackedStringsInDocument` of `jsx.ts` (per-document entry
list): the live-entry query used for decoration and collapse. -/
def findTrackedStringsInDocument (lines : List (List Char))
    (tracked : List TrackedString) : List StringInfo :=
  tracked.filterMap (resolveTrackedString lines)

/-- The backward in-line scan of `findMultilineString`: largest index
`≤ iStart` where the quote occurs unescaped. -/
def scanLineBack (lineText quote : List Char) (iStart : Int) : Option Nat :=
  if iStart < 0 then none
  else
    ((List.range (iStart.toNat + 1)).reverse).find? fun i =>
      hasPrefixAt lineText quote i && !(quote.length == 1 && isEscaped lineText i)

/-- The forward in-line scan of `findMultilineString`: smallest index in
`[startPos, length - quote.length]` where the quote occurs unescaped. -/
def scanLineFwd (lineText quote : List Char) (startPos : Nat) : Option Nat :=
  (List.range' startPos (lineText.length + 1 - quote.length - startPos)).find? fun i =>
    hasPrefixAt lineText quote i && !(quote.length == 1 && isEscaped lineText i)

/-- The backward line walk of `findMultilineString` looking for the
opening quote at or before the cursor. -/
def findOpeningQuoteML (document : TextDocument) (position : Pos) (quote : List Char) :
    Option (Nat × Nat) :=
  ((List.range (position.line + 1)).reverse).findSome? fun lineNum =>
    let lineText := document.lineAt lineNum
    let maxIndex : Int := (lineText.length : Int) - (quote.length : Int)
    let iStart : Int :=
      if lineNum = position.line then min maxIndex ((position.character : Int) - 1) else maxIndex
    (scanLineBack lineText quote iStart).map fun i => (lineNum, i)

/-- The forward line walk of `findMultilineString` looking for the
closing quote after the opening one. -/
def findClosingQuoteML (document : TextDocument) (startLine startChar : Nat) (quote : List Char) :
    Option (Nat × Nat) :=
  (List.range' startLine (document.lines.length - startLine)).findSome? fun lineNum =>
    let startPos := if lineNum = startLine then startChar + quote.length else 0
    (scanLineFwd (document.lineAt lineNum) quote startPos).map fun i => (lineNum, i)

/-- The per-quote body of `findMultilineString`: locate the pair, check
the cursor lies strictly after the opener and at or before the closing
token's last character, and extract the content. -/
def findMultilineForQuote (document : TextDocument) (position : Pos) (quote : List Char) :
    Option StringInfo :=
  match findOpeningQuoteML document position quote with
  | none => none
  | some (startLine, startChar) =>
    match findClosingQuoteML document startLine startChar quote with
    | none => none
    | some (endLine, endChar) =>
      if position.line < startLine ∨ endLine < position.line then none
      else if position.line = startLine ∧ position.character ≤ startChar then none
      else if position.line = endLine ∧ endChar + quote.length - 1 < position.character then none
      else
        let content := extractContent document.lines startLine endLine (startChar + quote.length) endChar
        some
          { start := ⟨startLine, startChar⟩
            stop := ⟨endLine, endChar + quote.length⟩
            quote := quote
            content := content
            isMultiline := decide (startLine ≠ endLine) || content.contains '\n'
            originalQuote := none }

/-- `findMultilineString` of `jsx.ts` (no preferred quote: try every
candidate token in order). -/
def findMultilineString (document : TextDocument) (position : Pos) : Option StringInfo :=
  getQuoteTokens.findSome? (findMultilineForQuote document position)

/-- `findStringAtCursor` of `jsx.ts`. -/
def findStringAtCursor (document : TextDocument) (position : Pos) : Option StringInfo :=
  match findSingleLineStringAtCursor document position with
  | some s => some s
  | none => findMultilineString document position

/-- The tracking mutation performed by the `toggleSplit` command handler
after the workspace edit resolves: nothing at all unless the host
reported success, otherwise untrack a merged string or re-locate and
track a freshly split one (with the remembered original quote).
`document` is the post-edit document. -/
def toggleSplitUpdateTracking (editSuccess wasMultiline : Bool) (document : TextDocument)
    (stringInfo : StringInfo) (tracked : List TrackedString) : List TrackedString :=
  if editSuccess then
    if wasMultiline then untrackString tracked stringInfo
    else
      let searchPosition : Pos :=
        ⟨stringInfo.start.line, stringInfo.start.character + stringInfo.quote.length⟩
      match findStringAtCursor document searchPosition with
      | some newStringInfo =>
        if newStringInfo.isMultiline then
          trackString tracked
            { newStringInfo with originalQuote := some (stringInfo.originalQuote.getD stringInfo.quote) }
        else tracked
      | none => tracked
  else tracked

theorem length_dropWhile_le (p : Char → Bool) (s : List Char) :
    (s.dropWhile p).length ≤ s.length := by
  induction s with
  | nil => simp [List.dropWhile]
  | cons c t ih =>
    by_cases h : p c
    · simp only [List.dropWhile_cons, h, if_true, List.length_cons]
      omega
    · simp [List.dropWhile_cons, h]

theorem takeWhile_append_of_all {p : Char → Bool} {w : List Char} (s : List Char)
    (h : ∀ c ∈ w, p c = true) : (w ++ s).takeWhile p = w ++ s.takeWhile p := by
  induction w with
  | nil => simp
  | cons c t ih =>
    have hc : p c = true := h c (by simp)
    simp [List.cons_append, List.takeWhile_cons, hc, ih fun c hc => h c (by simp [hc])]

theorem dropWhile_append_of_all {p : Char → Bool} {w : List Char} (s : List Char)
    (h : ∀ c ∈ w, p c = true) : (w ++ s).dropWhile p = s.dropWhile p := by
  induction w with
  | nil => simp
  | cons c t ih =>
    have hc : p c = true := h c (by simp)
    simp only [List.cons_append, List.dropWhile_cons, hc, if_true,
      ih fun c hc => h c (by simp [hc])]

theorem dropWhile_all_eq_nil {p : Char → Bool} {s : List Char}
    (h : ∀ c ∈ s, p c = true) : s.dropWhile p = [] := by
  have := dropWhile_append_of_all ([] : List Char) h
  simpa using this

theorem takeWhile_all_eq_self {p : Char → Bool} {s : List Char}
    (h : ∀ c ∈ s, p c = true) : s.takeWhile p = s := by
  have := takeWhile_append_of_all ([] : List Char) h
  simpa using this

theorem dropWhile_no_sat_eq_self {p : Char → Bool} {s : List Char}
    (h : ∀ c ∈ s, p c = false) : s.dropWhile p = s := by
  cases s with
  | nil => rfl
  | cons c t => simp [List.dropWhile_cons, h c (by simp)]

theorem takeWhile_no_sat_eq_nil {p : Char → Bool} {s : List Char}
    (h : ∀ c ∈ s, p c = false) : s.takeWhile p = [] := by
  cases s with
  | nil => rfl
  | cons c t => simp [List.takeWhile_cons, h c (by simp)]

theorem dropWhile_head_not {p : Char → Bool} {s : List Char} (d : Char)
    (h : s.dropWhile p ≠ []) : p ((s.dropWhile p).headD d) = false := by
  induction s with
  | nil => simp [List.dropWhile] at h
  | cons c t ih =>
    by_cases hc : p c
    · simp only [List.dropWhile_cons, hc, if_true] at h ⊢
      exact ih h
    · simp only [List.dropWhile_cons, hc] at h ⊢
      simp only [Bool.not_eq_true] at hc
      simpa using hc

theorem getLastD_irrel {s : List Char} (h : s ≠ []) (d₁ d₂ : Char) :
    s.getLastD d₁ = s.getLastD d₂ := by
  cases s with
  | nil => simp at h
  | cons c t => rw [List.getLastD_cons, List.getLastD_cons]

theorem getLastD_append_of_ne_nil {y : List Char} (z : List Char) (h : y ≠ []) (d : Char) :
    (z ++ y).getLastD d = y.getLastD d := by
  induction z generalizing d with
  | nil => simp
  | cons c t ih =>
    have ht : t ++ y ≠ [] := by
      intro hc
      exact h (by simpa using (List.append_eq_nil.mp hc).2)
    simp only [List.cons_append, List.getLastD_cons]
    rw [ih, getLastD_irrel (by simpa using h)]

theorem getLastD_reverse (l : List Char) (d : Char) :
    l.reverse.getLastD d = l.headD d := by
  cases l with
  | nil => simp
  | cons c t =>
    simp only [List.reverse_cons, List.headD_cons]
    rw [getLastD_append_of_ne_nil _ (by simp)]
    simp [List.getLastD_cons]

theorem headD_reverse (l : List Char) (d : Char) :
    l.reverse.headD d = l.getLastD d := by
  have := getLastD_reverse l.reverse d
  simp only [List.reverse_reverse] at this
  exact this.symm

theorem getLastD_dropWhile {p : Char → Bool} {s : List Char} (d : Char)
    (h : s.dropWhile p ≠ []) : (s.dropWhile p).getLastD d = s.getLastD d := by
  induction s with
  | nil => simp [List.dropWhile] at h
  | cons c t ih =>
    by_cases hc : p c
    · simp only [List.dropWhile_cons, hc, if_true] at h ⊢
      have ht : t ≠ [] := by
        intro he
        rw [he] at h
        simp [List.dropWhile] at h
      rw [ih h, List.getLastD_cons, getLastD_irrel ht]
    · simp [List.dropWhile_cons, hc]

theorem dropWhile_ne_nil_of_getLastD {p : Char → Bool} {s : List Char} (d : Char)
    (hne : s ≠ []) (h : p (s.getLastD d) = false) : s.dropWhile p ≠ [] := by
  induction s with
  | nil => simp at hne
  | cons c t ih =>
    by_cases hc : p c
    · have ht : t ≠ [] := by
        intro he
        rw [he] at h
        simp [List.getLastD_cons] at h
        rw [h] at hc
        simp at hc
      simp only [List.dropWhile_cons, hc, if_true]
      apply ih ht
      rw [List.getLastD_cons, getLastD_irrel ht] at h
      exact h
    · simp [List.dropWhile_cons, hc]

theorem splitWsF_congr : ∀ {f g : Nat} {s : List Char}, s.length ≤ f → s.length ≤ g →
    splitWsF f s = splitWsF g s := by
  intro f
  induction f with
  | zero =>
    intro g s hf _
    have hs : s = [] := List.length_eq_zero.mp (Nat.le_zero.mp hf)
    subst hs
    cases g with
    | zero => rfl
    | succ g => simp [splitWsF, List.dropWhile]
  | succ f ih =>
    intro g s hf hg
    cases g with
    | zero =>
      have hs : s = [] := List.length_eq_zero.mp (Nat.le_zero.mp hg)
      subst hs
      simp [splitWsF, List.dropWhile]
    | succ g =>
      simp only [splitWsF]
      cases h : s.dropWhile (fun c => !isWs c) with
      | nil => rfl
      | cons c rest =>
        dsimp only
        have h2 := length_dropWhile_le (fun c => !isWs c) s
        rw [h] at h2
        simp only [List.length_cons] at h2
        have h1 := length_dropWhile_le isWs rest
        rw [ih (show (rest.dropWhile isWs).length ≤ f by omega)
            (show (rest.dropWhile isWs).length ≤ g by omega)]

theorem splitWs_eq (s : List Char) :
    splitWs s =
      match s.dropWhile (fun c => !isWs c) with
      | [] => [s.takeWhile (fun c => !isWs c)]
      | _ :: rest => s.takeWhile (fun c => !isWs c) :: splitWs (rest.dropWhile isWs) := by
  cases hn : s.length with
  | zero =>
    have hs : s = [] := List.length_eq_zero.mp hn
    subst hs
    simp [splitWs, splitWsF, List.dropWhile]
  | succ n =>
    show splitWsF s.length s = _
    rw [hn]
    simp only [splitWsF]
    cases h : s.dropWhile (fun c => !isWs c) with
    | nil => rfl
    | cons c rest =>
      dsimp only
      have h2 := length_dropWhile_le (fun c => !isWs c) s
      rw [h] at h2
      simp only [List.length_cons] at h2
      have h1 := length_dropWhile_le isWs rest
      rw [show splitWsF n (rest.dropWhile isWs) = splitWs (rest.dropWhile isWs) from
        splitWsF_congr (by omega) (le_refl _)]

theorem splitWs_word_append {w s : List Char} (hw : w ≠ []) (hnw : ∀ c ∈ w, isWs c = false)
    (hs : s = [] ∨ isWs (s.headD ' ') = true) :
    splitWs (w ++ s) = if s.isEmpty then [w] else w :: splitWs (s.dropWhile isWs) := by
  have hall : ∀ c ∈ w, (fun c => !isWs c) c = true := by
    intro c hc
    simp [hnw c hc]
  have htake : (w ++ s).takeWhile (fun c => !isWs c) = w := by
    rw [takeWhile_append_of_all s hall]
    rcases hs with rfl | hh
    · simp
    · cases s with
      | nil => simp
      | cons c t =>
        simp only [List.headD_cons] at hh
        simp [List.takeWhile_cons, hh]
  have hdrop : (w ++ s).dropWhile (fun c => !isWs c) = s := by
    rw [dropWhile_append_of_all s hall]
    rcases hs with rfl | hh
    · rfl
    · cases s with
      | nil => rfl
      | cons c t =>
        simp only [List.headD_cons] at hh
        simp [List.dropWhile_cons, hh]
  rw [splitWs_eq]
  cases s with
  | nil =>
    rw [hdrop]
    dsimp only
    rw [htake]
    simp
  | cons c t =>
    rw [hdrop]
    dsimp only
    rw [htake]
    have hh : isWs c = true := by
      rcases hs with h' | h'
      · exact absurd h' (by simp)
      · simpa using h'
    simp [List.dropWhile_cons, hh]

theorem splitWs_chunks_wsfree :
    ∀ (n : Nat) (s : List Char), s.length ≤ n → ∀ w ∈ splitWs s, ∀ c ∈ w, isWs c = false := by
  intro n
  induction n with
  | zero =>
    intro s hs w hw c hc
    have h0 : s = [] := List.length_eq_zero.mp (Nat.le_zero.mp hs)
    subst h0
    simp [splitWs, splitWsF, List.dropWhile, List.takeWhile] at hw
    subst hw
    simp at hc
  | succ n ih =>
    intro s hs w hw c hc
    rw [splitWs_eq] at hw
    cases h : s.dropWhile (fun c => !isWs c) with
    | nil =>
      rw [h] at hw
      simp only [List.mem_singleton] at hw
      subst hw
      have := List.mem_takeWhile_imp hc
      simpa using this
    | cons c0 rest =>
      rw [h] at hw
      simp only [List.mem_cons] at hw
      rcases hw with rfl | hw
      · have := List.mem_takeWhile_imp hc
        simpa using this
      · have h2 := length_dropWhile_le (fun c => !isWs c) s
        rw [h] at h2
        simp only [List.length_cons] at h2
        have h1 := length_dropWhile_le isWs rest
        exact ih (rest.dropWhile isWs) (by omega) w hw c hc

theorem splitWs_chunks_ne_nil :
    ∀ (n : Nat) (s : List Char), s.length ≤ n → s ≠ [] →
      isWs (s.headD ' ') = false → isWs (s.getLastD ' ') = false →
      ∀ w ∈ splitWs s, w ≠ [] := by
  intro n
  induction n with
  | zero =>
    intro s hs hne _ _ _ _
    exact absurd (List.length_eq_zero.mp (Nat.le_zero.mp hs)) hne
  | succ n ih =>
    intro s hs hne hhead hlast w hw
    obtain ⟨c0, t, rfl⟩ : ∃ c0 t, s = c0 :: t := by
      cases s with
      | nil => exact absurd rfl hne
      | cons c0 t => exact ⟨c0, t, rfl⟩
    simp only [List.headD_cons] at hhead
    have htake : (c0 :: t).takeWhile (fun c => !isWs c) = c0 :: t.takeWhile (fun c => !isWs c) := by
      simp [List.takeWhile_cons, hhead]
    rw [splitWs_eq] at hw
    cases h : (c0 :: t).dropWhile (fun c => !isWs c) with
    | nil =>
      rw [h] at hw
      simp only [List.mem_singleton] at hw
      subst hw
      rw [htake]
      simp
    | cons c1 rest =>
      rw [h] at hw
      simp only [List.mem_cons] at hw
      rcases hw with rfl | hw
      · rw [htake]
        simp
      · -- the recursive tail: rest with the whitespace run stripped
        have hrne : (c0 :: t).dropWhile (fun c => !isWs c) ≠ [] := by rw [h]; simp
        have hlastr : ((c0 :: t).dropWhile (fun c => !isWs c)).getLastD ' ' = (c0 :: t).getLastD ' ' :=
          getLastD_dropWhile ' ' hrne
        have hc1 : isWs c1 = true := by
          have := dropWhile_head_not ' ' hrne
          rw [h] at this
          simpa using this
        have hrest_ne : rest ≠ [] := by
          intro hrnil
          subst hrnil
          rw [h] at hlastr
          simp only [List.getLastD_cons, List.getLastD_nil] at hlastr
          simp only [List.getLastD_cons] at hlast
          rw [← hlastr] at hlast
          rw [hc1] at hlast
          simp at hlast
        have hlast_rest : rest.getLastD ' ' = (c0 :: t).getLastD ' ' := by
          rw [h] at hlastr
          rw [List.getLastD_cons, getLastD_irrel hrest_ne c1 ' '] at hlastr
          exact hlastr
        have hs' : rest.dropWhile isWs ≠ [] := by
          apply dropWhile_ne_nil_of_getLastD ' ' hrest_ne
          rw [hlast_rest]
          exact hlast
        have hhead' : isWs ((rest.dropWhile isWs).headD ' ') = false :=
          dropWhile_head_not ' ' hs'
        have hlast' : isWs ((rest.dropWhile isWs).getLastD ' ') = false := by
          rw [getLastD_dropWhile ' ' hs', hlast_rest]
          exact hlast
        have h2 := length_dropWhile_le (fun c => !isWs c) (c0 :: t)
        rw [h] at h2
        simp only [List.length_cons] at h2 hs
        have h1 := length_dropWhile_le isWs rest
        exact ih (rest.dropWhile isWs) (by omega) hs' hhead' hlast' w hw

theorem dropWhile_append_split (p : Char → Bool) (x b : List Char) :
    (x ++ b).dropWhile p =
      if (x.dropWhile p).isEmpty then b.dropWhile p else x.dropWhile p ++ b := by
  induction x with
  | nil => simp
  | cons c t ih =>
    by_cases hc : p c <;> simp [List.dropWhile_cons, hc, ih]

theorem trim_append_ws_left {a : List Char} (x : List Char) (h : ∀ c ∈ a, isWs c = true) :
    trim (a ++ x) = trim x := by
  unfold trim
  rw [dropWhile_append_of_all x h]

theorem trim_all_ws {s : List Char} (h : ∀ c ∈ s, isWs c = true) : trim s = [] := by
  unfold trim
  rw [dropWhile_all_eq_nil h]
  simp [List.dropWhile]

theorem trim_of_no_ws {s : List Char} (h : ∀ c ∈ s, isWs c = false) : trim s = s := by
  unfold trim
  rw [dropWhile_no_sat_eq_self h,
    dropWhile_no_sat_eq_self (by intro c hc; exact h c (by simpa using hc)),
    List.reverse_reverse]

theorem trim_append_ws_right {b : List Char} (x : List Char) (h : ∀ c ∈ b, isWs c = true) :
    trim (x ++ b) = trim x := by
  unfold trim
  rw [dropWhile_append_split isWs x b]
  by_cases hx : (x.dropWhile isWs).isEmpty
  · rw [if_pos hx, dropWhile_all_eq_nil h, List.isEmpty_iff.mp hx]
  · rw [if_neg hx, List.reverse_append,
      dropWhile_append_of_all _ (by intro c hc; exact h c (by simpa using hc))]

theorem mem_of_mem_dropWhile {p : Char → Bool} {c : Char} :
    ∀ {l : List Char}, c ∈ l.dropWhile p → c ∈ l := by
  intro l
  induction l with
  | nil => simp [List.dropWhile]
  | cons a t ih =>
    by_cases h : p a
    · simp only [List.dropWhile_cons, h, if_true]
      intro hm
      exact List.mem_cons_of_mem a (ih hm)
    · simp [List.dropWhile_cons, h]

theorem mem_of_mem_trim {c : Char} {s : List Char} (h : c ∈ trim s) : c ∈ s := by
  unfold trim at h
  rw [List.mem_reverse] at h
  have h1 := mem_of_mem_dropWhile h
  rw [List.mem_reverse] at h1
  exact mem_of_mem_dropWhile h1

theorem trim_head_not_ws {s : List Char} (h : trim s ≠ []) :
    isWs ((trim s).headD ' ') = false := by
  unfold trim at h ⊢
  have hz : ((s.dropWhile isWs).reverse.dropWhile isWs) ≠ [] := by
    intro hc
    rw [hc] at h
    simp at h
  rw [headD_reverse]
  rw [getLastD_dropWhile ' ' hz, getLastD_reverse]
  apply dropWhile_head_not
  intro hc
  rw [hc] at hz
  simp [List.dropWhile] at hz

theorem trim_getLast_not_ws {s : List Char} (h : trim s ≠ []) :
    isWs ((trim s).getLastD ' ') = false := by
  unfold trim at h ⊢
  have hz : ((s.dropWhile isWs).reverse.dropWhile isWs) ≠ [] := by
    intro hc
    rw [hc] at h
    simp at h
  rw [getLastD_reverse]
  exact dropWhile_head_not ' ' hz

theorem splitNl_ne_nil (s : List Char) : splitNl s ≠ [] := by
  cases s with
  | nil => simp [splitNl]
  | cons c rest =>
    by_cases h : c = '\n'
    · simp [splitNl, h]
    · simp only [splitNl, h, if_false]
      cases splitNl rest <;> simp

theorem splitNl_of_no_nl {a : List Char} (h : ∀ c ∈ a, c ≠ '\n') : splitNl a = [a] := by
  induction a with
  | nil => rfl
  | cons c t ih =>
    have hc : ¬(c = '\n') := h c (by simp)
    simp only [splitNl, hc, if_false]
    rw [ih fun c hc => h c (by simp [hc])]

theorem splitNl_append_of_no_nl {a : List Char} (r : List Char) (h : ∀ c ∈ a, c ≠ '\n') :
    splitNl (a ++ '\n' :: r) = a :: splitNl r := by
  induction a with
  | nil => simp [splitNl]
  | cons c t ih =>
    have hc : ¬(c = '\n') := h c (by simp)
    show splitNl (c :: (t ++ '\n' :: r)) = (c :: t) :: splitNl r
    simp only [splitNl, hc, if_false]
    rw [ih fun c hc => h c (by simp [hc])]

theorem splitNl_flatMap_words {indent sp tail : List Char} {words : List (List Char)}
    (hind : ∀ c ∈ indent, c ≠ '\n') (hsp : ∀ c ∈ sp, c ≠ '\n')
    (hws : ∀ w ∈ words, ∀ c ∈ w, c ≠ '\n') (htail : ∀ c ∈ tail, c ≠ '\n') :
    splitNl ((words.flatMap fun w => indent ++ sp ++ w ++ ['\n']) ++ tail) =
      (words.map fun w => indent ++ sp ++ w) ++ [tail] := by
  induction words with
  | nil => simp [splitNl_of_no_nl htail]
  | cons w ws ih =>
    have hline : ∀ c ∈ indent ++ sp ++ w, c ≠ '\n' := by
      intro c hc
      simp only [List.append_assoc, List.mem_append] at hc
      rcases hc with hc | hc | hc
      · exact hind c hc
      · exact hsp c hc
      · exact hws w (by simp) c hc
    have harr :
        ((w :: ws).flatMap fun w => indent ++ sp ++ w ++ ['\n']) ++ tail =
          (indent ++ sp ++ w) ++ '\n' :: ((ws.flatMap fun w => indent ++ sp ++ w ++ ['\n']) ++ tail) := by
      simp [List.flatMap_cons, List.append_assoc]
    rw [harr, splitNl_append_of_no_nl _ hline,
      ih fun w hw => hws w (by simp [hw])]
    simp

theorem mergedContent_of_splitText {indent : List Char} {words : List (List Char)}
    (hindws : ∀ c ∈ indent, isWs c = true) (hindnl : ∀ c ∈ indent, c ≠ '\n')
    (hw : ∀ w ∈ words, w ≠ []) (hwf : ∀ w ∈ words, ∀ c ∈ w, isWs c = false) :
    mergedContent ('\n' :: ((words.flatMap fun w => indent ++ [' ', ' '] ++ w ++ ['\n']) ++ indent)) =
      joinSpace words := by
  have hwnl : ∀ w ∈ words, ∀ c ∈ w, c ≠ '\n' := by
    intro w hw' c hc he
    have := hwf w hw' c hc
    rw [he] at this
    simp [isWs] at this
  unfold mergedContent
  have hcons : splitNl ('\n' :: ((words.flatMap fun w => indent ++ [' ', ' '] ++ w ++ ['\n']) ++ indent)) =
      [] :: splitNl ((words.flatMap fun w => indent ++ [' ', ' '] ++ w ++ ['\n']) ++ indent) := by
    simp [splitNl]
  rw [hcons,
    splitNl_flatMap_words hindnl (by intro c hc he; simp at hc; rw [hc] at he; simp at he)
      hwnl hindnl]
  simp only [List.map_cons, List.map_append, List.map_map]
  have htr : (words.map (trim ∘ fun w => indent ++ [' ', ' '] ++ w)) = words := by
    have hcongr : ∀ w ∈ words, (trim ∘ fun w => indent ++ [' ', ' '] ++ w) w = id w := by
      intro w hw'
      simp only [Function.comp_apply, id]
      rw [show indent ++ [' ', ' '] ++ w = (indent ++ [' ', ' ']) ++ w by simp [List.append_assoc]]
      rw [trim_append_ws_left w (by
        intro c hc
        simp only [List.mem_append] at hc
        rcases hc with hc | hc
        · exact hindws c hc
        · simp at hc; rw [hc]; simp [isWs])]
      exact trim_of_no_ws (hwf w hw')
    rw [List.map_congr_left hcongr, List.map_id]
  rw [htr]
  have htri : trim indent = [] := trim_all_ws hindws
  have htre : trim ([] : List Char) = [] := rfl
  rw [htri, htre]
  simp only [List.filter_cons, List.filter_append, List.filter_cons, List.filter_nil]
  have : words.filter (fun w => !w.isEmpty) = words := by
    apply List.filter_eq_self.mpr
    intro w hw'
    cases hwe : w with
    | nil => exact absurd hwe (hw w hw')
    | cons a b => simp
  simp [this]

theorem mem_of_mem_takeWhile {p : Char → Bool} {c : Char} :
    ∀ {l : List Char}, c ∈ l.takeWhile p → c ∈ l := by
  intro l
  induction l with
  | nil => simp [List.takeWhile]
  | cons a t ih =>
    by_cases h : p a
    · simp only [List.takeWhile_cons, h, if_true, List.mem_cons]
      intro hm
      rcases hm with rfl | hm
      · exact Or.inl rfl
      · exact Or.inr (ih hm)
    · simp [List.takeWhile_cons, h]

theorem jsSubstring_zero (s : List Char) (b : Nat) (hb : b ≤ s.length) :
    jsSubstring s 0 b = s.take b := by
  unfold jsSubstring
  have h1 : min 0 s.length = 0 := by simp
  have h2 : min b s.length = b := by omega
  rw [h1, h2]
  simp

theorem take_length_takeWhile (p : Char → Bool) (s : List Char) :
    s.take (s.takeWhile p).length = s.takeWhile p := by
  induction s with
  | nil => simp
  | cons c t ih =>
    by_cases h : p c <;> simp [List.takeWhile_cons, h, ih]

theorem lineIndentOf_eq_takeWhile (lineText : List Char) :
    lineIndentOf lineText = lineText.takeWhile isWs := by
  have hlen : (lineText.dropWhile isWs).length ≤ lineText.length := length_dropWhile_le _ _
  have htl : (lineText.takeWhile isWs).length =
      lineText.length - (lineText.dropWhile isWs).length := by
    have h := congrArg List.length (List.takeWhile_append_dropWhile isWs lineText)
    simp only [List.length_append] at h
    omega
  unfold lineIndentOf trimStartJS
  rw [jsSubstring_zero _ _ (by omega), ← htl, take_length_takeWhile]

theorem drop_take_middle (q mid : List Char) :
    ((q ++ (mid ++ q)).drop q.length).take ((q ++ (mid ++ q)).length - q.length - q.length) =
      mid := by
  rw [List.drop_left]
  have h : (q ++ (mid ++ q)).length - q.length - q.length = mid.length := by
    simp only [List.length_append]
    omega
  rw [h, List.take_left]

theorem spanOfSplitText_content (stringInfo : StringInfo) (document : TextDocument) :
    (spanOfSplitText stringInfo document).content =
      '\n' :: ((splitWs (trim stringInfo.content)).flatMap
          (fun word => lineIndentOf (document.lineAt stringInfo.start.line) ++ [' ', ' '] ++ word ++ ['\n']) ++
        lineIndentOf (document.lineAt stringInfo.start.line)) := by
  have hsplit : splitString stringInfo document =
      splitQuoteOf stringInfo document ++
        (('\n' :: ((splitWs (trim stringInfo.content)).flatMap
            (fun word => lineIndentOf (document.lineAt stringInfo.start.line) ++ [' ', ' '] ++ word ++ ['\n']) ++
          lineIndentOf (document.lineAt stringInfo.start.line))) ++ splitQuoteOf stringInfo document) := by
    unfold splitString
    simp [List.append_assoc]
  show ((splitString stringInfo document).drop (splitQuoteOf stringInfo document).length).take
      ((splitString stringInfo document).length - (splitQuoteOf stringInfo document).length -
        (splitQuoteOf stringInfo document).length) = _
  rw [hsplit, drop_take_middle]

theorem splitQuoteOf_eq_quote {stringInfo : StringInfo} {document : TextDocument}
    (hrules : (getQuoteRules (resolveLanguageId document stringInfo)).multilineQuotes = [] ∨
      (getQuoteRules (resolveLanguageId document stringInfo)).allowsMultilineInRegularQuotes = true) :
    splitQuoteOf stringInfo document = stringInfo.quote := by
  unfold splitQuoteOf getMultilineQuote
  by_cases hjsx : isInJSXAttribute document stringInfo.start
  · simp [hjsx]
  · rcases hrules with h | h
    · simp [hjsx, h]
    · simp [hjsx, h]

/-- C1: for a single-line span whose content holds at least one word,
merging the text produced by splitting restores the quote token and
joins the words with single spaces, whenever the language rule set has
no dedicated multi-line token or tolerates multi-line text in ordinary
quotes. -/
theorem splitString_mergeString_roundTrip (document : TextDocument) (stringInfo : StringInfo)
    (horig : stringInfo.originalQuote = none)
    (hcontent : trim stringInfo.content ≠ [])
    (hline : ∀ c ∈ document.lineAt stringInfo.start.line, c ≠ '\n')
    (hrules : (getQuoteRules (resolveLanguageId document stringInfo)).multilineQuotes = [] ∨
      (getQuoteRules (resolveLanguageId document stringInfo)).allowsMultilineInRegularQuotes = true) :
    mergeString (spanOfSplitText stringInfo document) document =
      stringInfo.quote ++ joinSpace (splitWs (trim stringInfo.content)) ++ stringInfo.quote ∧
    splitQuoteOf stringInfo document = stringInfo.quote := by
  have hq := splitQuoteOf_eq_quote hrules
  have hwf : ∀ w ∈ splitWs (trim stringInfo.content), ∀ c ∈ w, isWs c = false :=
    splitWs_chunks_wsfree (trim stringInfo.content).length _ (le_refl _)
  have hwne : ∀ w ∈ splitWs (trim stringInfo.content), w ≠ [] :=
    splitWs_chunks_ne_nil (trim stringInfo.content).length _ (le_refl _) hcontent
      (trim_head_not_ws hcontent) (trim_getLast_not_ws hcontent)
  have hindws : ∀ c ∈ lineIndentOf (document.lineAt stringInfo.start.line), isWs c = true := by
    intro c hc
    rw [lineIndentOf_eq_takeWhile] at hc
    exact List.mem_takeWhile_imp hc
  have hindnl : ∀ c ∈ lineIndentOf (document.lineAt stringInfo.start.line), c ≠ '\n' := by
    intro c hc
    rw [lineIndentOf_eq_takeWhile] at hc
    exact hline c (mem_of_mem_takeWhile hc)
  have hspan_q : (spanOfSplitText stringInfo document).quote = stringInfo.quote := hq
  have hspan_orig : (spanOfSplitText stringInfo document).originalQuote = none := by
    show splitOriginalQuote stringInfo document = none
    unfold splitOriginalQuote
    rw [if_neg (by simp [hq])]
    exact horig
  have hmc : mergedContent (spanOfSplitText stringInfo document).content =
      joinSpace (splitWs (trim stringInfo.content)) := by
    rw [spanOfSplitText_content]
    exact mergedContent_of_splitText hindws hindnl hwne hwf
  refine ⟨?_, hq⟩
  unfold mergeString
  rw [hmc, hspan_q, hspan_orig]
  simp [shouldRestoreOriginalQuote]

/-- C1 witness: a concrete two-word round trip. -/
theorem splitString_mergeString_roundTrip_witness :
    mergeString (spanOfSplitText ⟨⟨0, 10⟩, ⟨0, 19⟩, ['"'], "one two".toList, false, none⟩
        ⟨"html", ["const x = \"one two\";".toList]⟩) ⟨"html", ["const x = \"one two\";".toList]⟩ =
      ['"'] ++ joinSpace (splitWs (trim "one two".toList)) ++ ['"'] ∧
    splitQuoteOf ⟨⟨0, 10⟩, ⟨0, 19⟩, ['"'], "one two".toList, false, none⟩
      ⟨"html", ["const x = \"one two\";".toList]⟩ = ['"'] :=
  splitString_mergeString_roundTrip ⟨"html", ["const x = \"one two\";".toList]⟩
    ⟨⟨0, 10⟩, ⟨0, 19⟩, ['"'], "one two".toList, false, none⟩ rfl (by decide) (by decide)
    (by decide)

/-- The final quote of a merge as claim C3 words it: the recorded
`originalQuote` exactly when one is recorded, it differs from the span's
quote, and the merged content does not satisfy the rule set's
special-feature predicate for the span's quote; otherwise the span's
quote. -/
def mergeFinalQuoteSpec (stringInfo : StringInfo) (document : TextDocument) : List Char :=
  match stringInfo.originalQuote with
  | some oq =>
    if oq ≠ stringInfo.quote ∧
        (getQuoteRules (resolveLanguageId document stringInfo)).hasSpecialFeatures
          (mergedContent stringInfo.content) stringInfo.quote = false then oq
    else stringInfo.quote
  | none => stringInfo.quote

/-- C3: `mergeString` wraps the merged content in the quote described by
`mergeFinalQuoteSpec` — the recorded original quote exactly under the
three conditions of the claim, the span's own quote in every other
case. -/
theorem mergeString_quote_resolution (stringInfo : StringInfo) (document : TextDocument) :
    mergeString stringInfo document =
      mergeFinalQuoteSpec stringInfo document ++ mergedContent stringInfo.content ++
        mergeFinalQuoteSpec stringInfo document := by
  unfold mergeString mergeFinalQuoteSpec shouldRestoreOriginalQuote
  cases h : stringInfo.originalQuote with
  | none => simp
  | some oq =>
    by_cases h1 : oq = stringInfo.quote
    · simp [h1]
    · by_cases h2 : (getQuoteRules (resolveLanguageId document stringInfo)).hasSpecialFeatures
          (mergedContent stringInfo.content) stringInfo.quote
      · simp [h1, h2]
      · simp [h1, h2]

/-- C4 (failing input): splitting a span whose content is a single
space produces an opening-quote line, a spurious blank word-line of two
indent spaces, and the closing-quote line — not only the two quote
lines the claim requires. -/
theorem splitString_blank_content_emits_blank_word_line :
    splitNl (splitString ⟨⟨0, 10⟩, ⟨0, 13⟩, ['"'], [' '], false, none⟩
        ⟨"html", ["const x = \" \";".toList]⟩) =
      [['"'], [' ', ' '], ['"']] := by decide

/-- C5 (counterexample): the entry stored by `trackString` records
`startChar` at the opening quote token's own position (column 10), not
at the first content column after the opening token (column 11), so the
stored tuple is not the quote-exclusive content boundary the claim
describes. -/
theorem trackString_startChar_at_quote_token :
    ((trackString [] ⟨⟨0, 10⟩, ⟨2, 1⟩, ['`'], "\nab\n".toList, true, none⟩).map
        TrackedString.startChar = [(10 : Int)]) ∧
    ((10 : Nat) + (['`'] : List Char).length = 11) ∧ ((10 : Int) ≠ (11 : Int)) := by decide

/-- C5 (amended): tracked entries are keyed by the tuple
`(startLine, startChar, endLine, endChar)` where `startChar` is the
opening token's own position and `endChar` the closing token's position
(`end.character` minus the quote length); `trackString` replaces any
entry with the same tuple and appends an entry carrying exactly that
tuple, and `untrackString` removes an entry exactly when the tuple
matches. -/
theorem trackString_untrackString_boundary_key (tracked : List TrackedString)
    (stringInfo : StringInfo) :
    (∃ e, trackString tracked stringInfo =
        tracked.filter (fun t => !trackKeyMatches t stringInfo) ++ [e] ∧
        e.startLine = (stringInfo.start.line : Int) ∧
        e.startChar = (stringInfo.start.character : Int) ∧
        e.endLine = (stringInfo.stop.line : Int) ∧
        e.endChar = (stringInfo.stop.character : Int) - (stringInfo.quote.length : Int)) ∧
    (∀ t, t ∈ untrackString tracked stringInfo ↔
        t ∈ tracked ∧
        ¬(t.startLine = (stringInfo.start.line : Int) ∧
          t.endLine = (stringInfo.stop.line : Int) ∧
          t.startChar = (stringInfo.start.character : Int) ∧
          t.endChar = (stringInfo.stop.character : Int) - (stringInfo.quote.length : Int))) := by
  constructor
  · exact ⟨mkTrackedEntry stringInfo, rfl, rfl, rfl, rfl, rfl⟩
  · intro t
    unfold untrackString trackKeyMatches
    rw [List.mem_filter]
    simp only [Bool.not_eq_eq_eq_not, Bool.not_true, Bool.and_eq_false_imp]
    constructor
    · rintro ⟨hmem, hkey⟩
      refine ⟨hmem, ?_⟩
      rintro ⟨h1, h2, h3, h4⟩
      simp only [h1, h2, h3, h4] at hkey
      simp at hkey
    · rintro ⟨hmem, hkey⟩
      refine ⟨hmem, ?_⟩
      by_cases h1 : t.startLine = (stringInfo.start.line : Int) <;>
        by_cases h2 : t.endLine = (stringInfo.stop.line : Int) <;>
          by_cases h3 : t.startChar = (stringInfo.start.character : Int) <;>
            by_cases h4 : t.endChar =
                (stringInfo.stop.character : Int) - (stringInfo.quote.length : Int) <;>
              simp [h1, h2, h3, h4]
      exact absurd ⟨h1, h2, h3, h4⟩ hkey

/-- C6: when the host reports the batch edit failed, the toggle
handler's tracking update leaves the registry untouched for every
combination of direction, document, span and prior registry state. -/
theorem toggleSplit_editFailure_leaves_tracking (wasMultiline : Bool) (document : TextDocument)
    (stringInfo : StringInfo) (tracked : List TrackedString) :
    toggleSplitUpdateTracking false wasMultiline document stringInfo tracked = tracked := rfl

/-- C10 (counterexample): the `plaintext` language identifier has no
entry in the quote-rule table and the located span is not in an
attribute context, yet splitting a double-quoted string on a
`val ... = ...` line converts the quote to the triple-quote token and
records an `originalQuote`, because `resolveLanguageId` reroutes
`plaintext` to `kotlin`. -/
theorem plaintext_valvar_converts_quote :
    (getQuoteRules "plaintext").multilineQuotes = [] ∧
    (getQuoteRules "plaintext").allowsMultilineInRegularQuotes = true ∧
    isInJSXAttribute ⟨"plaintext", ["val x = \"a b\"".toList]⟩ ⟨0, 8⟩ = false ∧
    splitQuoteOf ⟨⟨0, 8⟩, ⟨0, 13⟩, ['"'], "a b".toList, false, none⟩
      ⟨"plaintext", ["val x = \"a b\"".toList]⟩ = ['"', '"', '"'] ∧
    splitOriginalQuote ⟨⟨0, 8⟩, ⟨0, 13⟩, ['"'], "a b".toList, false, none⟩
      ⟨"plaintext", ["val x = \"a b\"".toList]⟩ = some ['"'] := by decide

/-- C10 (amended): whenever the resolved language identifier (after the
plaintext `val`/`var` heuristic) has no entry in the quote-rule table,
splitting keeps the span's quote token and leaves the recorded
`originalQuote` unchanged. -/
theorem split_keeps_quote_for_unlisted_language (document : TextDocument)
    (stringInfo : StringInfo)
    (h : ¬ resolveLanguageId document stringInfo ∈
        (["javascript", "typescript", "javascriptreact", "typescriptreact", "python",
          "csharp", "go", "ruby", "java", "kotlin", "php"] : List String)) :
    splitQuoteOf stringInfo document = stringInfo.quote ∧
    splitOriginalQuote stringInfo document = stringInfo.originalQuote := by
  simp only [List.mem_cons, List.not_mem_nil, or_false, not_or] at h
  obtain ⟨h1, h2, h3, h4, h5, h6, h7, h8, h9, h10, h11⟩ := h
  have hr : (getQuoteRules (resolveLanguageId document stringInfo)).multilineQuotes = [] := by
    unfold getQuoteRules
    simp [h1, h2, h3, h4, h5, h6, h7, h8, h9, h10, h11]
  have hq : splitQuoteOf stringInfo document = stringInfo.quote :=
    splitQuoteOf_eq_quote (Or.inl hr)
  refine ⟨hq, ?_⟩
  unfold splitOriginalQuote
  rw [if_neg (by simp [hq])]

/-- C10 witness: a language identifier absent from the table keeps the
quote and records nothing. -/
theorem split_keeps_quote_for_unlisted_language_witness :
    splitQuoteOf ⟨⟨0, 8⟩, ⟨0, 13⟩, ['"'], "a b".toList, false, none⟩
        ⟨"rust", ["let x = \"a b\";".toList]⟩ = ['"'] ∧
    splitOriginalQuote ⟨⟨0, 8⟩, ⟨0, 13⟩, ['"'], "a b".toList, false, none⟩
        ⟨"rust", ["let x = \"a b\";".toList]⟩ = none :=
  split_keeps_quote_for_unlisted_language ⟨"rust", ["let x = \"a b\";".toList]⟩
    ⟨⟨0, 8⟩, ⟨0, 13⟩, ['"'], "a b".toList, false, none⟩ (by decide)

theorem findIdxGo_eq_some {p : Nat → Bool} :
    ∀ {fuel i j : Nat}, findIdxGo p i fuel = some j → p j = true ∧ i ≤ j := by
  intro fuel
  induction fuel with
  | zero => intro i j h; simp [findIdxGo] at h
  | succ fuel ih =>
    intro i j h
    unfold findIdxGo at h
    by_cases hp : p i
    · rw [if_pos hp] at h
      obtain rfl : i = j := Option.some_inj.mp h
      exact ⟨hp, le_refl _⟩
    · rw [if_neg hp] at h
      obtain ⟨h1, h2⟩ := ih h
      exact ⟨h1, by omega⟩

theorem matchQuoteToken_sound {text : List Char} {index : Nat} {tok : List Char} :
    ∀ {tokens : List (List Char)}, matchQuoteToken text index tokens = some tok →
      hasPrefixAt text tok index = true ∧ tok ∈ tokens := by
  intro tokens
  induction tokens with
  | nil => intro h; simp [matchQuoteToken] at h
  | cons t ts ih =>
    intro h
    unfold matchQuoteToken at h
    by_cases hp : hasPrefixAt text t index
    · rw [if_pos hp] at h
      obtain rfl : t = tok := Option.some_inj.mp h
      exact ⟨hp, by simp⟩
    · rw [if_neg hp] at h
      obtain ⟨h1, h2⟩ := ih h
      exact ⟨h1, by simp [h2]⟩

theorem findClosingQuoteInLine_sound {lineText quote : List Char} {startIndex e : Nat}
    (h : findClosingQuoteInLine lineText startIndex quote = some e) :
    hasPrefixAt lineText quote e = true ∧ startIndex ≤ e ∧
      (quote.length = 1 → isEscaped lineText e = false) := by
  unfold findClosingQuoteInLine at h
  by_cases hq : quote.length = 1
  · rw [if_pos hq] at h
    unfold findIdxInRange at h
    obtain ⟨hp, hle⟩ := findIdxGo_eq_some h
    simp only [Bool.and_eq_true, Bool.not_eq_true'] at hp
    exact ⟨hp.1, hle, fun _ => hp.2⟩
  · rw [if_neg hq] at h
    unfold indexOfFrom findIdxInRange at h
    obtain ⟨hp, hle⟩ := findIdxGo_eq_some h
    exact ⟨hp, hle, fun h1 => absurd h1 hq⟩

theorem findSLLoop_sound {lineText : List Char} {lineNum cursorOffset : Nat} :
    ∀ {fuel i : Nat} {info : StringInfo},
      findSLLoop lineText lineNum cursorOffset i fuel = some info →
      info.start.line = lineNum ∧ info.stop.line = lineNum ∧
      info.start.character < cursorOffset ∧
      cursorOffset ≤ info.stop.character - 1 ∧
      info.quote ∈ QUOTE_TOKENS ∧
      hasPrefixAt lineText info.quote info.start.character = true ∧
      hasPrefixAt lineText info.quote (info.stop.character - info.quote.length) = true ∧
      (info.quote.length = 1 →
        isEscaped lineText info.start.character = false ∧
        isEscaped lineText (info.stop.character - info.quote.length) = false) := by
  intro fuel
  induction fuel with
  | zero => intro i info h; simp [findSLLoop] at h
  | succ fuel ih =>
    intro i info h
    unfold findSLLoop at h
    split at h
    · split at h
      · exact ih h
      · next token hm =>
        split at h
        · exact ih h
        · next hesc =>
          split at h
          · exact ih h
          · next e hcl =>
            split at h
            · next hcur =>
              obtain ⟨hpm, htok⟩ := matchQuoteToken_sound hm
              obtain ⟨hpe, _, hesc2⟩ := findClosingQuoteInLine_sound hcl
              have hinfo : info =
                  { start := ⟨lineNum, i⟩, stop := ⟨lineNum, e + token.length⟩,
                    quote := token,
                    content := jsSubstring lineText (i + token.length) e,
                    isMultiline := false, originalQuote := none } :=
                (Option.some_inj.mp h).symm
              subst hinfo
              have hsub : e + token.length - token.length = e := by omega
              refine ⟨rfl, rfl, hcur.1, hcur.2, htok, hpm, ?_, ?_⟩
              · simpa [hsub] using hpe
              · intro h1
                refine ⟨?_, by simpa [hsub] using hesc2 h1⟩
                by_cases he : isEscaped lineText i
                · exact absurd ⟨h1, he⟩ hesc
                · simpa using he
            · exact ih h
    · exact absurd h (by simp)

/-- C2: whenever the single-line pass returns a span, that span sits on
the cursor's line with the cursor strictly after the opening token's
position and at or before the last character of the closing token; the
quote token occurs literally at both recorded positions (plain
substring matching — the only matching condition for multi-character
tokens), and a 1-character quote is additionally unescaped (no odd run
of preceding backslashes) at both positions. -/
theorem findSingleLineStringAtCursor_sound (document : TextDocument) (position : Pos)
    (info : StringInfo)
    (h : findSingleLineStringAtCursor document position = some info) :
    info.start.line = position.line ∧
    info.stop.line = position.line ∧
    info.start.character < position.character ∧
    position.character ≤ info.stop.character - 1 ∧
    info.quote ∈ QUOTE_TOKENS ∧
    hasPrefixAt (document.lineAt position.line) info.quote info.start.character = true ∧
    hasPrefixAt (document.lineAt position.line) info.quote
      (info.stop.character - info.quote.length) = true ∧
    (info.quote.length = 1 →
      isEscaped (document.lineAt position.line) info.start.character = false ∧
      isEscaped (document.lineAt position.line) (info.stop.character - info.quote.length) = false) :=
  findSLLoop_sound h

/-- C2 witness: the span located in `const x = "one two";` at cursor
column 15 satisfies every clause of the soundness theorem. -/
theorem findSingleLineStringAtCursor_sound_witness :
    (10 : Nat) < 15 ∧ (15 : Nat) ≤ 19 - 1 ∧
    hasPrefixAt "const x = \"one two\";".toList ['"'] 10 = true ∧
    hasPrefixAt "const x = \"one two\";".toList ['"'] (19 - 1) = true ∧
    isEscaped "const x = \"one two\";".toList 10 = false ∧
    isEscaped "const x = \"one two\";".toList (19 - 1) = false := by
  have h := findSingleLineStringAtCursor_sound ⟨"typescript", ["const x = \"one two\";".toList]⟩
    ⟨0, 15⟩ ⟨⟨0, 10⟩, ⟨0, 19⟩, ['"'], "one two".toList, false, none⟩ (by decide)
  obtain ⟨-, -, h3, h4, -, h6, h7, h8⟩ := h
  exact ⟨h3, h4, h6, h7, (h8 rfl).1, (h8 rfl).2⟩

theorem refreshEntry_lines (lines : List (List Char)) (t : TrackedString) :
    (refreshEntry lines t).startLine = t.startLine ∧
    (refreshEntry lines t).endLine = t.endLine := by
  unfold refreshEntry
  split
  · exact ⟨rfl, rfl⟩
  · split
    · exact ⟨rfl, rfl⟩
    · cases hm1 : findQuotePositionInLine (lineTextAt lines t.startLine.toNat) t.quote
          t.startChar QuoteDir.start with
      | none => simp [hm1]
      | some sq =>
        cases hm2 : findQuotePositionInLine (lineTextAt lines t.endLine.toNat) t.quote
            t.endChar QuoteDir.stop with
        | none => simp [hm1, hm2]
        | some eq' => simp [hm1, hm2]

theorem applyBoundaryShift_lines_of_before {lines : List (List Char)} {change : ContentChange}
    {t : TrackedString} (h : (change.rangeEnd.line : Int) < t.startLine) :
    (applyBoundaryShift lines change t).startLine = t.startLine + lineDeltaOf change ∧
    (applyBoundaryShift lines change t).endLine = t.endLine + lineDeltaOf change := by
  unfold applyBoundaryShift
  simp only [if_pos h]
  split
  · split
    · split <;> split <;> exact ⟨rfl, rfl⟩
    · split <;> exact ⟨rfl, rfl⟩
  · exact ⟨rfl, rfl⟩

/-- C8 (counterexample): for an entry starting at line 2 column 5, a
newline inserted at line 2 column 0 — a change whose range ends before
the entry's start position — leaves `startLine` at 2 instead of
shifting it by the line-delta 1 (only `endLine` moves). -/
theorem change_before_start_on_same_line_not_shifted :
    lineDeltaOf ⟨⟨2, 0⟩, ⟨2, 0⟩, ['\n']⟩ = 1 ∧
    (updateTrackedOnChange [[], [], [], "a  = `".toList, "  w".toList, ['`']]
        ⟨⟨2, 0⟩, ⟨2, 0⟩, ['\n']⟩
        ⟨2, 5, 4, 0, ['`'], "\n  w\n".toList, ['w'], none⟩).startLine = 2 ∧
    (updateTrackedOnChange [[], [], [], "a  = `".toList, "  w".toList, ['`']]
        ⟨⟨2, 0⟩, ⟨2, 0⟩, ['\n']⟩
        ⟨2, 5, 4, 0, ['`'], "\n  w\n".toList, ['w'], none⟩).endLine = 5 ∧
    ((2 : Int) ≠ 2 + 1) := by decide

theorem applyBoundaryShift_lines_cases (lines : List (List Char)) (change : ContentChange)
    (t : TrackedString)
    (hml : t.startLine < t.endLine)
    (hse : (change.rangeStart.line : Int) ≤ (change.rangeEnd.line : Int))
    (hend : (change.rangeEnd.line : Int) ≤ t.startLine) :
    (applyBoundaryShift lines change t).endLine = t.endLine + lineDeltaOf change ∧
    (applyBoundaryShift lines change t).startLine =
      (if (change.rangeStart.line : Int) < t.startLine then t.startLine + lineDeltaOf change
       else t.startLine) := by
  by_cases h1 : (change.rangeEnd.line : Int) < t.startLine
  · rw [if_pos (by omega)]
    have hb := @applyBoundaryShift_lines_of_before lines change t h1
    exact ⟨hb.2, hb.1⟩
  · have hisA : isChangeAfterStringB lines change t = false := by
      unfold isChangeAfterStringB
      rw [if_neg ?hcond]
      case hcond =>
        simp only [Bool.and_eq_true, beq_iff_eq]
        rintro ⟨h2, h3⟩
        omega
    unfold applyBoundaryShift
    simp only [hisA, Bool.not_false, Bool.and_true, if_neg h1, Bool.false_eq_true, if_false]
    rw [if_pos (show (change.rangeStart.line : Int) ≤ t.endLine ∧
        t.startLine ≤ (change.rangeEnd.line : Int) from ⟨by omega, by omega⟩)]
    by_cases h4 : (change.rangeStart.line : Int) < t.startLine
    · rw [if_pos h4,
        if_neg (show ¬(t.startLine ≤ (change.rangeStart.line : Int)) from by omega)]
      split
      · split
        · split <;> split <;> exact ⟨rfl, rfl⟩
        · split <;> exact ⟨rfl, rfl⟩
      · exact ⟨rfl, rfl⟩
    · rw [if_neg h4,
        if_pos (show t.startLine ≤ (change.rangeStart.line : Int) from by omega)]
      split
      · split
        · split <;> split <;> exact ⟨rfl, rfl⟩
        · split <;> exact ⟨rfl, rfl⟩
      · exact ⟨rfl, rfl⟩

/-- C8 (amended): for a multi-line tracked entry and a document change
whose (ordered) range ends before the entry's start position, the
entry's end line always shifts by the change's line-delta (inserted
line count minus replaced line count), while the start line shifts by
the line-delta exactly when the change starts on a line strictly before
the entry's start line; when the change both starts and ends on the
entry's start line the start line is left unchanged.  The subsequent
refresh never touches the line fields. -/
theorem change_before_start_shifts_lines (lines : List (List Char))
    (change : ContentChange) (t : TrackedString)
    (hml : t.startLine < t.endLine)
    (hse : (change.rangeStart.line : Int) ≤ (change.rangeEnd.line : Int))
    (h : (change.rangeEnd.line : Int) < t.startLine ∨
      ((change.rangeEnd.line : Int) = t.startLine ∧
        (change.rangeEnd.character : Int) < t.startChar)) :
    (updateTrackedOnChange lines change t).endLine = t.endLine + lineDeltaOf change ∧
    (updateTrackedOnChange lines change t).startLine =
      (if (change.rangeStart.line : Int) < t.startLine then t.startLine + lineDeltaOf change
       else t.startLine) := by
  unfold updateTrackedOnChange
  have hr := refreshEntry_lines lines (applyBoundaryShift lines change t)
  rw [hr.1, hr.2]
  exact applyBoundaryShift_lines_cases lines change t hml hse (by omega)

/-- C8 witness: a two-line deletion ranging from line 1 column 0 to
line 2 column 3 against an entry starting at line 2 column 5 shifts
both boundaries up by one line (the change starts on an earlier line),
landing at start line 1 and end line 3. -/
theorem change_before_start_shifts_lines_witness :
    ((updateTrackedOnChange [] ⟨⟨1, 0⟩, ⟨2, 3⟩, []⟩
        ⟨2, 5, 4, 0, ['`'], [], [], none⟩).endLine =
      (4 : Int) + lineDeltaOf ⟨⟨1, 0⟩, ⟨2, 3⟩, []⟩ ∧
    (updateTrackedOnChange [] ⟨⟨1, 0⟩, ⟨2, 3⟩, []⟩
        ⟨2, 5, 4, 0, ['`'], [], [], none⟩).startLine =
      (if ((1 : Nat) : Int) < (2 : Int) then (2 : Int) + lineDeltaOf ⟨⟨1, 0⟩, ⟨2, 3⟩, []⟩
       else (2 : Int))) ∧
    lineDeltaOf ⟨⟨1, 0⟩, ⟨2, 3⟩, []⟩ = -1 :=
  ⟨change_before_start_shifts_lines [] ⟨⟨1, 0⟩, ⟨2, 3⟩, []⟩
    ⟨2, 5, 4, 0, ['`'], [], [], none⟩ (by decide) (by decide) (by decide),
   by decide⟩

theorem findQuotePositionInLine_of_valid {lineText quote : List Char} {expectedPos : Int}
    (h : fqpIsValid lineText quote expectedPos = true) (direction : QuoteDir) :
    findQuotePositionInLine lineText quote expectedPos direction = some expectedPos.toNat := by
  unfold findQuotePositionInLine
  rw [if_pos h]

/-- C7: a change on a consistent tracked entry's end line that starts
strictly after the last character of its closing quote leaves the entry
completely unchanged — boundaries, content and fingerprint — and the
entry is still produced by the live-entry query.  Consistency means the
quote token is valid at both recorded positions of the current document,
the recorded content matches the extraction between the quotes, and the
fingerprint matches the recorded content. -/
theorem trackedEntry_unchanged_by_edit_after_closing_quote
    (lines : List (List Char)) (change : ContentChange) (t : TrackedString)
    (h0l : 0 ≤ t.startLine) (h0s : 0 ≤ t.startChar) (h0e : 0 ≤ t.endChar)
    (hle : t.startLine ≤ t.endLine) (hml : t.startLine ≠ t.endLine)
    (hbound : t.endLine < (lines.length : Int))
    (hcs : (change.rangeStart.line : Int) = t.endLine)
    (hce : (change.rangeEnd.line : Int) = t.endLine)
    (hvs : fqpIsValid (lineTextAt lines t.startLine.toNat) t.quote t.startChar = true)
    (hve : fqpIsValid (lineTextAt lines t.endLine.toNat) t.quote t.endChar = true)
    (hafter : t.endChar + (t.quote.length : Int) - 1 < (change.rangeStart.character : Int))
    (hcontent : extractContent lines t.startLine.toNat t.endLine.toNat
        (t.startChar.toNat + t.quote.length) t.endChar.toNat = t.content)
    (hhash : t.contentHash = normalizeContent t.content) :
    updateTrackedOnChange lines change t = t ∧
    (resolveTrackedString lines t).isSome = true := by
  have hafterB : isChangeAfterStringB lines change t = true := by
    unfold isChangeAfterStringB
    rw [if_pos (by simp [hcs, hce])]
    rw [if_pos ⟨by omega, hbound⟩]
    simp only [findQuotePositionInLine_of_valid hve QuoteDir.stop]
    simp only [Int.toNat_of_nonneg h0e]
    exact decide_eq_true hafter
  have hnotbefore : ¬((change.rangeEnd.line : Int) < t.startLine) := by omega
  have hshift : applyBoundaryShift lines change t = t := by
    unfold applyBoundaryShift
    simp only [hafterB, if_neg hnotbefore]
    simp
  have hrefresh : refreshEntry lines t = t := by
    unfold refreshEntry
    rw [if_neg (by push_neg; exact ⟨by omega, by omega⟩)]
    rw [if_neg (by push_neg; exact ⟨by omega, by omega⟩)]
    simp only [findQuotePositionInLine_of_valid hvs QuoteDir.start,
      findQuotePositionInLine_of_valid hve QuoteDir.stop]
    rw [hcontent]
    simp only [Int.toNat_of_nonneg h0s, Int.toNat_of_nonneg h0e, ← hhash]
  have hres : (resolveTrackedString lines t).isSome = true := by
    unfold resolveTrackedString
    rw [if_neg (by push_neg; exact ⟨by omega, by omega⟩)]
    rw [if_neg (by push_neg; exact ⟨by omega, by omega⟩)]
    simp only [findQuotePositionInLine_of_valid hvs QuoteDir.start,
      findQuotePositionInLine_of_valid hve QuoteDir.stop]
    rw [hcontent]
    rw [if_pos ?_]
    · simp
    · have hneq : t.startLine.toNat ≠ t.endLine.toNat := by omega
      rw [hhash]
      simp [hneq]
  refine ⟨?_, hres⟩
  unfold updateTrackedOnChange
  rw [hshift, hrefresh]

/-- C7 witness: appending a semicolon right after the closing backtick
of a tracked three-line string leaves the entry untouched and live. -/
theorem trackedEntry_unchanged_by_edit_after_closing_quote_witness :
    updateTrackedOnChange
        ["const s = `".toList, "  one".toList, "  two".toList, "`;;".toList]
        ⟨⟨3, 1⟩, ⟨3, 1⟩, [';']⟩
        ⟨0, 10, 3, 0, ['`'], "\n  one\n  two\n".toList, "one two".toList, none⟩ =
      ⟨0, 10, 3, 0, ['`'], "\n  one\n  two\n".toList, "one two".toList, none⟩ ∧
    (resolveTrackedString
        ["const s = `".toList, "  one".toList, "  two".toList, "`;;".toList]
        ⟨0, 10, 3, 0, ['`'], "\n  one\n  two\n".toList, "one two".toList, none⟩).isSome = true :=
  trackedEntry_unchanged_by_edit_after_closing_quote
    ["const s = `".toList, "  one".toList, "  two".toList, "`;;".toList]
    ⟨⟨3, 1⟩, ⟨3, 1⟩, [';']⟩
    ⟨0, 10, 3, 0, ['`'], "\n  one\n  two\n".toList, "one two".toList, none⟩
    (by decide) (by decide) (by decide) (by decide) (by decide) (by decide) (by decide)
    (by decide) (by decide) (by decide) (by decide) (by decide) (by decide)

/-- C9 (counterexample): in `const x = "a ` b";` under JavaScript the
split converts the quote to a backtick, and the middle word is itself a
backtick, so its produced line equals the quote token and is skipped by
`calculateNewCursorPosition`.  For the cursor on the first character of
word `b` (pair `(2, 0)`), the mapped position degenerates to the span
start, re-resolving it yields no pair at all, and the merge-side
mapping then parks the cursor on the opening quote at column 10 instead
of the character `b` at column 15 — the composed mapping is not the
identity on this in-word position. -/
theorem cursorMapping_quote_word_breaks_identity :
    getCursorWordPosition ⟨⟨0, 10⟩, ⟨0, 17⟩, ['"'], "a ` b".toList, false, none⟩ ⟨0, 15⟩ =
      some ⟨2, 0⟩ ∧
    getCursorWordPosition
        (spanOfSplitText ⟨⟨0, 10⟩, ⟨0, 17⟩, ['"'], "a ` b".toList, false, none⟩
          ⟨"javascript", ["const x = \"a ` b\";".toList]⟩)
        (calculateNewCursorPosition ⟨⟨0, 10⟩, ⟨0, 17⟩, ['"'], "a ` b".toList, false, none⟩
          (splitString ⟨⟨0, 10⟩, ⟨0, 17⟩, ['"'], "a ` b".toList, false, none⟩
            ⟨"javascript", ["const x = \"a ` b\";".toList]⟩)
          (some ⟨2, 0⟩) false) = none ∧
    calculateNewCursorPosition
        (spanOfSplitText ⟨⟨0, 10⟩, ⟨0, 17⟩, ['"'], "a ` b".toList, false, none⟩
          ⟨"javascript", ["const x = \"a ` b\";".toList]⟩)
        (mergeString (spanOfSplitText ⟨⟨0, 10⟩, ⟨0, 17⟩, ['"'], "a ` b".toList, false, none⟩
          ⟨"javascript", ["const x = \"a ` b\";".toList]⟩)
          ⟨"javascript", ["const x = \"a ` b\";".toList]⟩)
        none true = ⟨0, 10⟩ ∧
    ((⟨0, 10⟩ : Pos) ≠ ⟨0, 15⟩) := by decide

theorem getWordRangesGo_ws_lead {p : List Char} (hws : ∀ c ∈ p, isWs c = true) :
    ∀ (rest : List Char) (i : Nat),
      getWordRangesGo (p ++ rest) i none = getWordRangesGo rest (i + p.length) none := by
  induction p with
  | nil => intro rest i; simp
  | cons c t ih =>
    intro rest i
    have hc : isWs c = true := hws c (by simp)
    show getWordRangesGo (c :: (t ++ rest)) i none = _
    simp only [getWordRangesGo]
    rw [if_pos hc]
    rw [ih (fun c hc => hws c (by simp [hc])) rest (i + 1)]
    have hidx : i + 1 + t.length = i + (c :: t).length := by
      simp only [List.length_cons]
      omega
    rw [hidx]

theorem getWordRangesGo_word {w : List Char} (hwf : ∀ c ∈ w, isWs c = false) :
    ∀ (i s : Nat), getWordRangesGo w i (some s) = [⟨s, i + w.length⟩] := by
  induction w with
  | nil => intro i s; simp [getWordRangesGo]
  | cons c t ih =>
    intro i s
    have hc : isWs c = false := hwf c (by simp)
    simp only [getWordRangesGo]
    rw [if_neg (by simp [hc])]
    rw [ih (fun c hc => hwf c (by simp [hc])) (i + 1) s]
    have hidx : i + 1 + t.length = i + (c :: t).length := by
      simp only [List.length_cons]
      omega
    rw [hidx]

theorem getWordRanges_ws_word {p w : List Char} (hws : ∀ c ∈ p, isWs c = true)
    (hwf : ∀ c ∈ w, isWs c = false) (hne : w ≠ []) :
    getWordRanges (p ++ w) = [⟨p.length, p.length + w.length⟩] := by
  unfold getWordRanges
  rw [getWordRangesGo_ws_lead hws w 0]
  cases w with
  | nil => exact absurd rfl hne
  | cons c t =>
    have hc : isWs c = false := hwf c (by simp)
    simp only [getWordRangesGo]
    rw [if_neg (by simp [hc])]
    rw [getWordRangesGo_word (fun c hc => hwf c (by simp [hc])) (0 + p.length + 1) (0 + p.length)]
    simp only [List.length_cons, Nat.zero_add]
    have h2 : p.length + 1 + t.length = p.length + (t.length + 1) := by omega
    rw [h2]

theorem gcwpAtLine_ws_word {ind w : List Char} (hind : ∀ c ∈ ind, isWs c = true)
    (hwf : ∀ c ∈ w, isWs c = false) (hne : w ≠ []) (off wc : Nat) (hoff : off ≤ w.length) :
    gcwpAtLine ((ind ++ [' ', ' ']) ++ w) 0 (ind.length + 2 + off) wc = some ⟨wc, off⟩ := by
  have hws2 : ∀ c ∈ ind ++ [' ', ' '], isWs c = true := by
    intro c hc
    simp only [List.mem_append] at hc
    rcases hc with hc | hc
    · exact hind c hc
    · simp at hc; rw [hc]; simp [isWs]
  have hr := getWordRanges_ws_word hws2 hwf hne
  have hlen : (ind ++ [' ', ' ']).length = ind.length + 2 := by simp
  have hcond : ((⟨(ind ++ [' ', ' ']).length, (ind ++ [' ', ' ']).length + w.length⟩ : WRange).start : Int) ≤
      ((ind.length + 2 + off : Nat) : Int) - ((0 : Nat) : Int) ∧
      ((ind.length + 2 + off : Nat) : Int) - ((0 : Nat) : Int) ≤
        ((⟨(ind ++ [' ', ' ']).length, (ind ++ [' ', ' ']).length + w.length⟩ : WRange).stop : Int) := by
    constructor <;> (simp only [hlen]; push_cast; omega)
  have hoffv : ((((ind.length + 2 + off : Nat) : Int) - ((0 : Nat) : Int)) -
      ((⟨(ind ++ [' ', ' ']).length, (ind ++ [' ', ' ']).length + w.length⟩ : WRange).start : Int)).toNat = off := by
    simp only [hlen]
    push_cast
    omega
  have hfir : findInRangesML [⟨(ind ++ [' ', ' ']).length, (ind ++ [' ', ' ']).length + w.length⟩]
      wc (((ind.length + 2 + off : Nat) : Int) - ((0 : Nat) : Int)) 0 = some ⟨wc, off⟩ := by
    unfold findInRangesML
    rw [if_pos hcond, hoffv]
    rfl
  unfold gcwpAtLine
  simp only [hr]
  rw [if_neg (by simp)]
  rw [hfir]

theorem splitNl_splitString (stringInfo : StringInfo) (document : TextDocument)
    (hQwf : ∀ c ∈ splitQuoteOf stringInfo document, isWs c = false)
    (hline : ∀ c ∈ document.lineAt stringInfo.start.line, c ≠ '\n') :
    splitNl (splitString stringInfo document) =
      splitQuoteOf stringInfo document ::
        ((splitWs (trim stringInfo.content)).map
            (fun w => lineIndentOf (document.lineAt stringInfo.start.line) ++ [' ', ' '] ++ w) ++
          [lineIndentOf (document.lineAt stringInfo.start.line) ++ splitQuoteOf stringInfo document]) := by
  have hindnl : ∀ c ∈ lineIndentOf (document.lineAt stringInfo.start.line), c ≠ '\n' := by
    intro c hc
    rw [lineIndentOf_eq_takeWhile] at hc
    exact hline c (mem_of_mem_takeWhile hc)
  have hQnl : ∀ c ∈ splitQuoteOf stringInfo document, c ≠ '\n' := by
    intro c hc he
    have := hQwf c hc
    rw [he] at this
    simp [isWs] at this
  have hwnl : ∀ w ∈ splitWs (trim stringInfo.content), ∀ c ∈ w, c ≠ '\n' := by
    intro w hw c hc he
    have := splitWs_chunks_wsfree (trim stringInfo.content).length _ (le_refl _) w hw c hc
    rw [he] at this
    simp [isWs] at this
  have hsplit : splitString stringInfo document =
      splitQuoteOf stringInfo document ++
        '\n' :: ((splitWs (trim stringInfo.content)).flatMap
            (fun word => lineIndentOf (document.lineAt stringInfo.start.line) ++ [' ', ' '] ++ word ++ ['\n']) ++
          (lineIndentOf (document.lineAt stringInfo.start.line) ++ splitQuoteOf stringInfo document)) := by
    unfold splitString
    simp [List.append_assoc]
  rw [hsplit, splitNl_append_of_no_nl _ hQnl,
    splitNl_flatMap_words hindnl
      (by intro c hc he; simp at hc; rw [hc] at he; simp at he) hwnl
      (by
        intro c hc
        simp only [List.mem_append] at hc
        rcases hc with hc | hc
        · exact hindnl c hc
        · exact hQnl c hc)]

theorem calcNewMultiLoop_words {Q ind : List Char} (startLine off : Nat)
    (hQne : Q ≠ []) (hind : ∀ c ∈ ind, isWs c = true) :
    ∀ (ws' : List (List Char)) (i c wi : Nat), c ≤ wi → wi < c + ws'.length →
      (∀ w ∈ ws', w ≠ [] ∧ (∀ ch ∈ w, isWs ch = false) ∧ w ≠ Q) →
      calcNewMultiLoop Q startLine wi off
          (ws'.map (fun w => ind ++ [' ', ' '] ++ w) ++ [ind ++ Q]) i c =
        some ⟨startLine + (i + (wi - c)),
          (ind.length + 2) + min off ((ws'.getD (wi - c) []).length)⟩ := by
  have hws2 : ∀ ch ∈ ind ++ [' ', ' '], isWs ch = true := by
    intro ch hc
    simp only [List.mem_append] at hc
    rcases hc with hc | hc
    · exact hind ch hc
    · simp at hc; rw [hc]; simp [isWs]
  intro ws'
  induction ws' with
  | nil =>
    intro i c wi h1 h2 h3
    simp only [List.length_nil] at h2
    omega
  | cons w rest ih =>
    intro i c wi h1 h2 h3
    obtain ⟨hwne, hwf, hwq⟩ := h3 w (by simp)
    have htrim : trim (ind ++ [' ', ' '] ++ w) = w := by
      rw [trim_append_ws_left w hws2]
      exact trim_of_no_ws hwf
    have hwe : w.isEmpty = false := by
      cases w with
      | nil => exact absurd rfl hwne
      | cons a b => rfl
    have hbeq : (w == Q) = false := by
      rw [beq_eq_false_iff_ne]
      exact hwq
    have hranges := getWordRanges_ws_word hws2 hwf hwne
    simp only [List.map_cons, List.cons_append, calcNewMultiLoop]
    rw [htrim]
    rw [if_neg (by simp [hwe, hbeq])]
    rw [hranges]
    rw [if_neg (by simp)]
    by_cases hwc : wi = c
    · subst hwc
      rw [if_pos (by simp)]
      have hsub : (ind ++ [' ', ' ']).length + w.length - (ind ++ [' ', ' ']).length = w.length := by
        omega
      simp only [List.getD_cons_zero, Nat.sub_self, List.length_append, List.length_cons,
        List.length_nil]
      have hfin : (ind.length + (0 + 1 + 1)) + w.length - (ind.length + (0 + 1 + 1)) = w.length := by
        omega
      rw [hfin]
      have hstart : ind.length + (0 + 1 + 1) = ind.length + 2 := by omega
      rw [hstart]
      have hi : i + 0 = i := by omega
      rw [hi]
    · have hlt : c < wi := by omega
      rw [if_neg (by simp; omega)]
      simp only [List.length_cons, List.length_nil]
      have hrec := ih (i + 1) (c + 1) wi (by omega) (by simp at h2 ⊢; omega)
        (fun w hw => h3 w (by simp [hw]))
      have hcnt : c + (0 + 1) = c + 1 := by omega
      rw [hcnt]
      show calcNewMultiLoop Q startLine wi off
          (List.map (fun w => ind ++ [' ', ' '] ++ w) rest ++ [ind ++ Q]) (i + 1) (c + 1) =
        some ⟨startLine + (i + (wi - c)),
          ind.length + 2 + min off (((w :: rest).getD (wi - c) []).length)⟩
      have hl1 : i + 1 + (wi - (c + 1)) = i + (wi - c) := by omega
      have hk : wi - c = (wi - (c + 1)) + 1 := by omega
      have hgetD : (w :: rest).getD (wi - c) [] = rest.getD (wi - (c + 1)) [] := by
        rw [hk, List.getD_cons_succ]
      rw [hrec, hl1, hgetD]

theorem filter_nonempty_words (s : List Char) (h : trim s ≠ []) :
    (splitWs (trim s)).filter (fun w => !w.isEmpty) = splitWs (trim s) := by
  apply List.filter_eq_self.mpr
  intro w hw
  have := splitWs_chunks_ne_nil (trim s).length _ (le_refl _) h
    (trim_head_not_ws h) (trim_getLast_not_ws h) w hw
  cases hwe : w with
  | nil => exact absurd hwe this
  | cons a b => rfl

theorem calcNew_split_position (stringInfo : StringInfo) (document : TextDocument)
    (wi off : Nat)
    (hcontent : trim stringInfo.content ≠ [])
    (hQwf : ∀ c ∈ splitQuoteOf stringInfo document, isWs c = false)
    (hQne : splitQuoteOf stringInfo document ≠ [])
    (hline : ∀ c ∈ document.lineAt stringInfo.start.line, c ≠ '\n')
    (hnoq : ∀ w ∈ splitWs (trim stringInfo.content), w ≠ splitQuoteOf stringInfo document)
    (hwi : wi < (splitWs (trim stringInfo.content)).length)
    (hoff : off ≤ ((splitWs (trim stringInfo.content)).getD wi []).length) :
    calculateNewCursorPosition stringInfo (splitString stringInfo document)
        (some ⟨wi, off⟩) false =
      ⟨stringInfo.start.line + (1 + wi),
        (lineIndentOf (document.lineAt stringInfo.start.line)).length + 2 + off⟩ := by
  have hindws : ∀ c ∈ lineIndentOf (document.lineAt stringInfo.start.line), isWs c = true := by
    intro c hc
    rw [lineIndentOf_eq_takeWhile] at hc
    exact List.mem_takeWhile_imp hc
  have hfilter := filter_nonempty_words stringInfo.content hcontent
  have hlines := splitNl_splitString stringInfo document hQwf hline
  have hQtrim : trim (splitQuoteOf stringInfo document) = splitQuoteOf stringInfo document :=
    trim_of_no_ws hQwf
  have hQe : (splitQuoteOf stringInfo document).isEmpty = false := by
    cases hqe : splitQuoteOf stringInfo document with
    | nil => exact absurd hqe hQne
    | cons a b => rfl
  have hwords3 : ∀ w ∈ splitWs (trim stringInfo.content),
      w ≠ [] ∧ (∀ ch ∈ w, isWs ch = false) ∧ w ≠ splitQuoteOf stringInfo document := by
    intro w hw
    exact ⟨splitWs_chunks_ne_nil (trim stringInfo.content).length _ (le_refl _) hcontent
        (trim_head_not_ws hcontent) (trim_getLast_not_ws hcontent) w hw,
      splitWs_chunks_wsfree (trim stringInfo.content).length _ (le_refl _) w hw,
      hnoq w hw⟩
  unfold calculateNewCursorPosition
  dsimp only
  rw [hfilter]
  rw [if_neg (by omega)]
  rw [hlines]
  rw [if_pos (show (splitQuoteOf stringInfo document ::
      (List.map (fun w => lineIndentOf (document.lineAt stringInfo.start.line) ++ [' ', ' '] ++ w)
          (splitWs (trim stringInfo.content)) ++
        [lineIndentOf (document.lineAt stringInfo.start.line) ++ splitQuoteOf stringInfo document])).length ≠ 0
      from by simp)]
  simp only [List.headD_cons, hQtrim]
  have hloop : calcNewMultiLoop (splitQuoteOf stringInfo document) stringInfo.start.line wi off
      (splitQuoteOf stringInfo document ::
        ((splitWs (trim stringInfo.content)).map
            (fun w => lineIndentOf (document.lineAt stringInfo.start.line) ++ [' ', ' '] ++ w) ++
          [lineIndentOf (document.lineAt stringInfo.start.line) ++ splitQuoteOf stringInfo document]))
      0 0 =
      some ⟨stringInfo.start.line + (1 + wi),
        ((lineIndentOf (document.lineAt stringInfo.start.line)).length + 2) +
          min off ((splitWs (trim stringInfo.content)).getD wi []).length⟩ := by
    simp only [calcNewMultiLoop]
    rw [hQtrim]
    rw [if_pos (by simp [hQe])]
    have := calcNewMultiLoop_words stringInfo.start.line off
      hQne hindws (splitWs (trim stringInfo.content)) 1 0 wi (by omega) (by omega) hwords3
    simpa using this
  rw [hloop]
  rw [min_eq_left hoff]
  rfl

theorem getD_map_lt (f : List Char → List Char) :
    ∀ {l : List (List Char)} {j : Nat}, j < l.length →
      (l.map f).getD j [] = f (l.getD j []) := by
  intro l
  induction l with
  | nil => intro j h; simp at h
  | cons x xs ih =>
    intro j h
    cases j with
    | zero => simp
    | succ j =>
      simp only [List.map_cons, List.getD_cons_succ]
      exact ih (by simp at h; omega)

theorem gcwpMultiLoop_reach (contentLines : List (List Char))
    (startLine startChar qlen cursorChar target : Nat) (W : Nat → Nat)
    (htpos : 0 < target)
    (hW : ∀ lo, lo < target →
      W (lo + 1) = W lo + (getWordRanges (contentLines.getD lo [])).length) :
    ∀ (remaining lineOffset : Nat), lineOffset ≤ target → target < lineOffset + remaining →
      gcwpMultiLoop contentLines startLine startChar qlen (startLine + target) cursorChar
          remaining lineOffset (W lineOffset) =
        gcwpAtLine (contentLines.getD target []) 0 cursorChar (W target) := by
  intro remaining
  induction remaining with
  | zero => intro lineOffset h1 h2; omega
  | succ remaining ih =>
    intro lineOffset h1 h2
    by_cases heq : lineOffset = target
    · subst heq
      show (if startLine + lineOffset = startLine + lineOffset then
          gcwpAtLine (contentLines.getD lineOffset [])
            (if startLine + lineOffset = startLine then startChar + qlen else 0)
            cursorChar (W lineOffset)
        else gcwpMultiLoop contentLines startLine startChar qlen (startLine + lineOffset) cursorChar
          remaining (lineOffset + 1) (W lineOffset + (getWordRanges (contentLines.getD lineOffset [])).length)) = _
      rw [if_pos rfl, if_neg (by omega)]
    · have hlt : lineOffset < target := by omega
      show (if startLine + lineOffset = startLine + target then
          gcwpAtLine (contentLines.getD lineOffset [])
            (if startLine + lineOffset = startLine then startChar + qlen else 0)
            cursorChar (W lineOffset)
        else gcwpMultiLoop contentLines startLine startChar qlen (startLine + target) cursorChar
          remaining (lineOffset + 1) (W lineOffset + (getWordRanges (contentLines.getD lineOffset [])).length)) = _
      rw [if_neg (by omega)]
      rw [← hW lineOffset hlt]
      exact ih (lineOffset + 1) (by omega) (by omega)

theorem spanOfSplitText_isMultiline (stringInfo : StringInfo) (document : TextDocument) :
    (spanOfSplitText stringInfo document).isMultiline = true := rfl

theorem spanOfSplitText_start (stringInfo : StringInfo) (document : TextDocument) :
    (spanOfSplitText stringInfo document).start = stringInfo.start := rfl

theorem spanOfSplitText_quote (stringInfo : StringInfo) (document : TextDocument) :
    (spanOfSplitText stringInfo document).quote = splitQuoteOf stringInfo document := rfl

theorem spanOfSplitText_stop_line (stringInfo : StringInfo) (document : TextDocument) :
    (spanOfSplitText stringInfo document).stop.line =
      stringInfo.start.line + ((splitNl (splitString stringInfo document)).length - 1) := rfl

theorem gcwp_of_split_position (stringInfo : StringInfo) (document : TextDocument)
    (wi off : Nat)
    (hcontent : trim stringInfo.content ≠ [])
    (hQwf : ∀ c ∈ splitQuoteOf stringInfo document, isWs c = false)
    (hline : ∀ c ∈ document.lineAt stringInfo.start.line, c ≠ '\n')
    (hwi : wi < (splitWs (trim stringInfo.content)).length)
    (hoff : off ≤ ((splitWs (trim stringInfo.content)).getD wi []).length) :
    getCursorWordPosition (spanOfSplitText stringInfo document)
        ⟨stringInfo.start.line + (1 + wi),
          (lineIndentOf (document.lineAt stringInfo.start.line)).length + 2 + off⟩ =
      some ⟨wi, off⟩ := by
  have hindws : ∀ c ∈ lineIndentOf (document.lineAt stringInfo.start.line), isWs c = true := by
    intro c hc
    rw [lineIndentOf_eq_takeWhile] at hc
    exact List.mem_takeWhile_imp hc
  have hindnl : ∀ c ∈ lineIndentOf (document.lineAt stringInfo.start.line), c ≠ '\n' := by
    intro c hc
    rw [lineIndentOf_eq_takeWhile] at hc
    exact hline c (mem_of_mem_takeWhile hc)
  have hwnl : ∀ w ∈ splitWs (trim stringInfo.content), ∀ c ∈ w, c ≠ '\n' := by
    intro w hw c hc he
    have := splitWs_chunks_wsfree (trim stringInfo.content).length _ (le_refl _) w hw c hc
    rw [he] at this
    simp [isWs] at this
  have hwne : ∀ w ∈ splitWs (trim stringInfo.content), w ≠ [] :=
    splitWs_chunks_ne_nil (trim stringInfo.content).length _ (le_refl _) hcontent
      (trim_head_not_ws hcontent) (trim_getLast_not_ws hcontent)
  have hwf : ∀ w ∈ splitWs (trim stringInfo.content), ∀ c ∈ w, isWs c = false :=
    splitWs_chunks_wsfree (trim stringInfo.content).length _ (le_refl _)
  have hCL : splitNl (spanOfSplitText stringInfo document).content =
      [] :: ((splitWs (trim stringInfo.content)).map
          (fun w => lineIndentOf (document.lineAt stringInfo.start.line) ++ [' ', ' '] ++ w) ++
        [lineIndentOf (document.lineAt stringInfo.start.line)]) := by
    rw [spanOfSplitText_content]
    rw [show splitNl ('\n' :: ((splitWs (trim stringInfo.content)).flatMap
        (fun word => lineIndentOf (document.lineAt stringInfo.start.line) ++ [' ', ' '] ++ word ++ ['\n']) ++
        lineIndentOf (document.lineAt stringInfo.start.line))) =
      [] :: splitNl ((splitWs (trim stringInfo.content)).flatMap
        (fun word => lineIndentOf (document.lineAt stringInfo.start.line) ++ [' ', ' '] ++ word ++ ['\n']) ++
        lineIndentOf (document.lineAt stringInfo.start.line)) from by simp [splitNl]]
    rw [splitNl_flatMap_words hindnl
      (by intro c hc he; simp at hc; rw [hc] at he; simp at he) hwnl hindnl]
  have hstopline : (spanOfSplitText stringInfo document).stop.line =
      stringInfo.start.line + ((splitWs (trim stringInfo.content)).length + 1) := by
    rw [spanOfSplitText_stop_line,
      splitNl_splitString stringInfo document hQwf hline]
    simp
  have hws2 : ∀ c ∈ lineIndentOf (document.lineAt stringInfo.start.line) ++ [' ', ' '],
      isWs c = true := by
    intro c hc
    simp only [List.mem_append] at hc
    rcases hc with hc | hc
    · exact hindws c hc
    · simp at hc; rw [hc]; simp [isWs]
  have hmemD : ∀ j, j < (splitWs (trim stringInfo.content)).length →
      (splitWs (trim stringInfo.content)).getD j [] ∈ splitWs (trim stringInfo.content) := by
    intro j hj
    rw [List.getD_eq_getElem _ _ hj]
    exact List.getElem_mem hj
  -- the accumulated word count before each produced line
  have hW : ∀ lo, lo < 1 + wi →
      (fun lo => lo - 1) (lo + 1) =
        (fun lo => lo - 1) lo +
          (getWordRanges ((([] : List Char) ::
            ((splitWs (trim stringInfo.content)).map
              (fun w => lineIndentOf (document.lineAt stringInfo.start.line) ++ [' ', ' '] ++ w) ++
            [lineIndentOf (document.lineAt stringInfo.start.line)])).getD lo [])).length := by
    intro lo hlo
    cases lo with
    | zero => simp [getWordRanges, getWordRangesGo]
    | succ j =>
      have hj : j < (splitWs (trim stringInfo.content)).length := by omega
      simp only [List.getD_cons_succ]
      rw [List.getD_append]
      · rw [getD_map_lt _ hj]
        rw [getWordRanges_ws_word hws2 (hwf _ (hmemD j hj)) (hwne _ (hmemD j hj))]
        simp
      · simp [hj]
  have hreach := gcwpMultiLoop_reach
    (([] : List Char) ::
      ((splitWs (trim stringInfo.content)).map
        (fun w => lineIndentOf (document.lineAt stringInfo.start.line) ++ [' ', ' '] ++ w) ++
      [lineIndentOf (document.lineAt stringInfo.start.line)]))
    stringInfo.start.line stringInfo.start.character
    (spanOfSplitText stringInfo document).quote.length
    ((lineIndentOf (document.lineAt stringInfo.start.line)).length + 2 + off)
    (1 + wi) (fun lo => lo - 1) (by omega) hW
    ((splitWs (trim stringInfo.content)).length + 2) 0 (by omega) (by omega)
  simp only [] at hreach
  rw [show (0 : Nat) - 1 = 0 from rfl] at hreach
  rw [show 1 + wi - 1 = wi from by omega] at hreach
  have hgetD : ((([] : List Char) ::
      ((splitWs (trim stringInfo.content)).map
        (fun w => lineIndentOf (document.lineAt stringInfo.start.line) ++ [' ', ' '] ++ w) ++
      [lineIndentOf (document.lineAt stringInfo.start.line)])).getD (1 + wi) []) =
      (lineIndentOf (document.lineAt stringInfo.start.line) ++ [' ', ' ']) ++
        (splitWs (trim stringInfo.content)).getD wi [] := by
    rw [show 1 + wi = wi + 1 from by omega]
    simp only [List.getD_cons_succ]
    rw [List.getD_append]
    · rw [getD_map_lt _ hwi]
    · simp [hwi]
  rw [hgetD] at hreach
  have hat := gcwpAtLine_ws_word hindws (hwf _ (hmemD wi hwi)) (hwne _ (hmemD wi hwi)) off wi hoff
  unfold getCursorWordPosition
  rw [if_neg (by simp [spanOfSplitText_isMultiline])]
  rw [hCL]
  rw [spanOfSplitText_start]
  have hrem : (spanOfSplitText stringInfo document).stop.line - stringInfo.start.line + 1 =
      (splitWs (trim stringInfo.content)).length + 2 := by
    rw [hstopline]
    omega
  rw [hrem]
  rw [show (spanOfSplitText stringInfo document).quote.length =
    (splitQuoteOf stringInfo document).length from rfl] at hreach ⊢
  rw [hreach, hat]

theorem buildWPGo_facts (content : List Char) :
    ∀ (ws : List (List Char)) (i cur : Nat), ∀ e ∈ buildWPGo content ws i cur,
      ∃ k, k < ws.length ∧ e.index = i + k ∧ e.stop = e.start + (ws.getD k []).length := by
  intro ws
  induction ws with
  | nil => intro i cur e he; simp [buildWPGo] at he
  | cons w rest ih =>
    intro i cur e he
    unfold buildWPGo at he
    cases hio : indexOfFrom content w cur with
    | some wordIndex =>
      rw [hio] at he
      simp only [List.mem_cons] at he
      rcases he with rfl | he
      · exact ⟨0, by simp, by simp, by simp⟩
      · obtain ⟨k, hk, hidx, hstop⟩ := ih (i + 1) _ e he
        refine ⟨k + 1, by simp; omega, by omega, ?_⟩
        rw [List.getD_cons_succ]
        exact hstop
    | none =>
      rw [hio] at he
      obtain ⟨k, hk, hidx, hstop⟩ := ih (i + 1) cur e he
      refine ⟨k + 1, by simp; omega, by omega, ?_⟩
      rw [List.getD_cons_succ]
      exact hstop

theorem buildWPGo_ne_nil {content : List Char} :
    ∀ {ws : List (List Char)} {i cur : Nat}, buildWPGo content ws i cur ≠ [] → ws ≠ [] := by
  intro ws i cur h
  cases ws with
  | nil => simp [buildWPGo] at h
  | cons w rest => simp

theorem findInWord_sound : ∀ {wps : List WordPos} {off : Int} {wp : WP},
    findInWord wps off = some wp →
      ∃ e ∈ wps, wp.wordIndex = e.index ∧ (e.start : Int) ≤ off ∧ off ≤ (e.stop : Int) ∧
        wp.charOffset = (off - (e.start : Int)).toNat := by
  intro wps
  induction wps with
  | nil => intro off wp h; simp [findInWord] at h
  | cons e rest ih =>
    intro off wp h
    unfold findInWord at h
    by_cases hc : (e.start : Int) ≤ off ∧ off ≤ (e.stop : Int)
    · rw [if_pos hc] at h
      obtain rfl : (⟨e.index, (off - (e.start : Int)).toNat⟩ : WP) = wp := Option.some_inj.mp h
      exact ⟨e, by simp, rfl, hc.1, hc.2, rfl⟩
    · rw [if_neg hc] at h
      obtain ⟨e', he', h1, h2, h3, h4⟩ := ih h
      exact ⟨e', by simp [he'], h1, h2, h3, h4⟩

theorem findBetweenSL_sound (words : List (List Char)) :
    ∀ {wps : List WordPos} {off : Int} {wp : WP},
    findBetweenSL words wps off = some wp →
      ∃ e ∈ wps, (wp.wordIndex = e.index ∧ wp.charOffset = (words.getD e.index []).length) ∨
        (wp.wordIndex = e.index ∧ wp.charOffset = 0) := by
  intro wps
  induction wps with
  | nil => intro off wp h; simp [findBetweenSL] at h
  | cons e1 rest ih =>
    intro off wp h
    cases rest with
    | nil => simp [findBetweenSL] at h
    | cons e2 rest2 =>
      unfold findBetweenSL at h
      by_cases hc : (e1.stop : Int) < off ∧ off < (e2.start : Int)
      · rw [if_pos hc] at h
        by_cases hd : off - (e1.stop : Int) ≤ (e2.start : Int) - off
        · rw [if_pos hd] at h
          obtain rfl : (⟨e1.index, (words.getD e1.index []).length⟩ : WP) = wp :=
            Option.some_inj.mp h
          exact ⟨e1, by simp, Or.inl ⟨rfl, rfl⟩⟩
        · rw [if_neg hd] at h
          obtain rfl : (⟨e2.index, 0⟩ : WP) = wp := Option.some_inj.mp h
          exact ⟨e2, by simp, Or.inr ⟨rfl, rfl⟩⟩
      · rw [if_neg hc] at h
        obtain ⟨e', he', hor⟩ := ih h
        exact ⟨e', by simp [List.mem_cons] at he' ⊢; tauto, hor⟩

theorem getLastD_eq_getD_length_sub_one :
    ∀ {l : List (List Char)} (d : List Char), l ≠ [] → l.getLastD d = l.getD (l.length - 1) d := by
  intro l
  induction l with
  | nil => intro d h; exact absurd rfl h
  | cons x xs ih =>
    intro d h
    cases xs with
    | nil => simp
    | cons y ys =>
      rw [List.getLastD_cons]
      rw [ih x (by simp)]
      have hlen : (x :: y :: ys).length - 1 = ((y :: ys).length - 1) + 1 := by simp
      rw [hlen, List.getD_cons_succ]
      have h2 : (y :: ys).length - 1 < (y :: ys).length := by simp
      rw [List.getD_eq_getElem _ _ h2, List.getD_eq_getElem _ _ h2]

theorem gcwp_singleLine_bounds (stringInfo : StringInfo) (pos : Pos) (wi off : Nat)
    (hml : stringInfo.isMultiline = false)
    (h : getCursorWordPosition stringInfo pos = some ⟨wi, off⟩) :
    ((splitWs (trim stringInfo.content)).filter (fun w => !w.isEmpty) ≠ []) ∧
    wi < ((splitWs (trim stringInfo.content)).filter (fun w => !w.isEmpty)).length ∧
    off ≤ (((splitWs (trim stringInfo.content)).filter (fun w => !w.isEmpty)).getD wi []).length := by
  unfold getCursorWordPosition at h
  rw [hml] at h
  simp only [Bool.not_false, if_true] at h
  set words := (splitWs (trim stringInfo.content)).filter (fun w => !w.isEmpty) with hwords
  set content := trim stringInfo.content with hcontent
  set cursorOffset : Int :=
    (pos.character : Int) - ((stringInfo.start.character + stringInfo.quote.length : Nat) : Int)
    with hco
  cases hfi : findInWord (buildWPGo content words 0 0) cursorOffset with
  | some wp =>
    rw [hfi] at h
    obtain rfl : wp = ⟨wi, off⟩ := Option.some_inj.mp h
    obtain ⟨e, he, h1, h2, h3, h4⟩ := findInWord_sound hfi
    obtain ⟨k, hk, hidx, hstop⟩ := buildWPGo_facts content words 0 0 e he
    dsimp only at h1 h4
    have hwik : wi = k := by omega
    subst hwik
    refine ⟨by intro hn; rw [hn] at hk; simp at hk, by omega, ?_⟩
    omega
  | none =>
    rw [hfi] at h
    cases hfb : findBetweenSL words (buildWPGo content words 0 0) cursorOffset with
    | some wp =>
      rw [hfb] at h
      obtain rfl : wp = ⟨wi, off⟩ := Option.some_inj.mp h
      obtain ⟨e, he, hor⟩ := findBetweenSL_sound words hfb
      obtain ⟨k, hk, hidx, hstop⟩ := buildWPGo_facts content words 0 0 e he
      have hne : words ≠ [] := by intro hn; rw [hn] at hk; simp at hk
      rcases hor with ⟨h1, h2⟩ | ⟨h1, h2⟩
      · dsimp only at h1 h2
        have hwik : wi = k := by omega
        subst hwik
        refine ⟨hne, by omega, ?_⟩
        rw [h2, hidx]
        simp
      · dsimp only at h1 h2
        have hwik : wi = k := by omega
        subst hwik
        exact ⟨hne, by omega, by omega⟩
    | none =>
      rw [hfb] at h
      dsimp only at h
      split at h
      · next hb =>
        obtain hwp : (⟨0, 0⟩ : WP) = ⟨wi, off⟩ := Option.some_inj.mp h
        have hwi0 : wi = 0 := by cases hwp; rfl
        have hoff0 : off = 0 := by cases hwp; rfl
        have hne : words ≠ [] := by
          apply @buildWPGo_ne_nil content words 0 0
          intro hn
          rw [hn] at hb
          simp at hb
        subst hwi0 hoff0
        exact ⟨hne, List.length_pos.mpr hne, by omega⟩
      · next hb =>
        split at h
        · next hw =>
          obtain hwp : (⟨words.length - 1, (words.getLastD []).length⟩ : WP) = ⟨wi, off⟩ :=
            Option.some_inj.mp h
          have hne : words ≠ [] := by
            intro hn
            rw [hn] at hw
            simp at hw
          have hwiv : wi = words.length - 1 := by cases hwp; rfl
          have hoffv : off = (words.getLastD []).length := by cases hwp; rfl
          have hlen : 0 < words.length := List.length_pos.mpr hne
          subst hwiv
          refine ⟨hne, by omega, ?_⟩
          rw [hoffv, getLastD_eq_getD_length_sub_one [] hne]
        · next hw =>
          exact absurd h (by simp)

example :
    findMultilineString ⟨"typescript", ["const x = `".toList, "  one".toList, "  two".toList, "`;".toList]⟩ ⟨2, 3⟩ =
      some ⟨⟨0, 10⟩, ⟨3, 1⟩, ['`'], "\n  one\n  two\n".toList, true, none⟩ := by decide

example :
    findQuotePositionInLine "`;x".toList ['`'] 0 QuoteDir.stop = some 0 := by decide

example :
    findQuotePositionInLine "ab `".toList ['`'] 5 QuoteDir.stop = some 3 := by decide

example : hasInterpJS "ab".toList = false := by decide
example : hasInterpJS "a${x}b".toList = true := by decide
example : hasInterpJS ("a$".toList ++ [Char.ofNat 123] ++ "x".toList) = false := by decide
example : hasValVarWord "val x = ".toList = true := by decide
example : hasValVarWord "interval x = ".toList = false := by decide
example : hasValVarWord "var ".toList = true := by decide
example : endsWithEqWs "<div a=  ".toList = true := by decide
example : endsWithEqWs "<div a".toList = false := by decide

example : splitWs " a  b ".toList = [[], ['a'], ['b'], []] := by decide
example : splitWs "".toList = [[]] := by decide
example : splitWs "one two".toList = [['o','n','e'], ['t','w','o']] := by decide
example : splitNl "a\nb".toList = [['a'], ['b']] := by decide
example : splitNl "a\n".toList = [['a'], []] := by decide
example : trim "  ab ".toList = ['a', 'b'] := by decide
example : joinSpace [['a'], ['b','c']] = ['a', ' ', 'b', 'c'] := by decide
example : isEscaped "ab\\\\\"".toList 4 = false := by decide
example : isEscaped "ab\\\"".toList 3 = true := by decide
example : lastIndexOfChar "a<b<".toList '<' = 3 := by decide
example : lastIndexOfChar "ab".toList '<' = -1 := by decide
example : jsSubstring "hello".toList 1 3 = ['e', 'l'] := by decide

theorem headD_append_of_ne_nil {x : List Char} (y : List Char) (h : x ≠ []) (d : Char) :
    (x ++ y).headD d = x.headD d := by
  cases x with
  | nil => exact absurd rfl h
  | cons c t => rfl

theorem headD_mem {α : Type} {l : List α} (d : α) (h : l ≠ []) : l.headD d ∈ l := by
  cases l with
  | nil => exact absurd rfl h
  | cons c t => simp

theorem getLastD_mem {α : Type} : ∀ {l : List α} (d : α), l ≠ [] → l.getLastD d ∈ l := by
  intro l
  induction l with
  | nil => intro d h; exact absurd rfl h
  | cons c t ih =>
    intro d _
    cases t with
    | nil => simp
    | cons a b =>
      rw [List.getLastD_cons]
      exact List.mem_cons_of_mem _ (ih c (by simp))

theorem getLastD_irrel2 {α : Type} {l : List α} (h : l ≠ []) (d₁ d₂ : α) :
    l.getLastD d₁ = l.getLastD d₂ := by
  cases l with
  | nil => exact absurd rfl h
  | cons c t => rw [List.getLastD_cons, List.getLastD_cons]

theorem midJoin_cons_cons (sep w v : List Char) (vs : List (List Char)) :
    midJoin sep (w :: v :: vs) = (w ++ sep) ++ midJoin sep (v :: vs) := by
  simp [midJoin, List.flatMap_cons, List.append_assoc]

theorem midJoin_ne_nil {sep : List Char} {words : List (List Char)} (hne : words ≠ [])
    (hwne : ∀ w ∈ words, w ≠ []) : midJoin sep words ≠ [] := by
  cases words with
  | nil => exact absurd rfl hne
  | cons w rest =>
    have hw := hwne w (by simp)
    simp only [midJoin]
    intro h
    exact hw (List.append_eq_nil.mp h).1

theorem midJoin_getLastD {sep : List Char} (d : Char) :
    ∀ {words : List (List Char)}, words ≠ [] → (∀ w ∈ words, w ≠ []) →
      (midJoin sep words).getLastD d = (words.getLastD []).getLastD d := by
  intro words
  induction words with
  | nil => intro h _; exact absurd rfl h
  | cons w rest ih =>
    intro _ hwne
    cases rest with
    | nil => simp [midJoin]
    | cons v vs =>
      have hr : ((w :: v :: vs : List (List Char)).getLastD []) = (v :: vs).getLastD [] := by
        rw [List.getLastD_cons]
        exact getLastD_irrel2 (by simp) w []
      rw [midJoin_cons_cons,
        getLastD_append_of_ne_nil _
          (midJoin_ne_nil (by simp) (fun u hu => hwne u (by simp [hu]))) d,
        ih (by simp) (fun u hu => hwne u (by simp [hu])), hr]

theorem flatMap_words_affix {ind sp : List Char} :
    ∀ (words : List (List Char)), words ≠ [] →
      words.flatMap (fun w => ind ++ sp ++ w ++ ['\n']) ++ ind =
        (ind ++ sp) ++ (midJoin ('\n' :: (ind ++ sp)) words ++ ('\n' :: ind)) := by
  intro words
  induction words with
  | nil => intro h; exact absurd rfl h
  | cons w rest ih =>
    intro _
    cases rest with
    | nil => simp [midJoin, List.append_assoc]
    | cons v vs =>
      rw [List.flatMap_cons, List.append_assoc, ih (by simp)]
      simp [midJoin, List.flatMap_cons, List.append_assoc]

theorem trim_eq_self_of_ends {s : List Char} (hne : s ≠ [])
    (hh : isWs (s.headD ' ') = false) (hl : isWs (s.getLastD ' ') = false) :
    trim s = s := by
  unfold trim
  have h1 : s.dropWhile isWs = s := by
    cases s with
    | nil => rfl
    | cons c t =>
      simp only [List.headD_cons] at hh
      simp [List.dropWhile_cons, hh]
  rw [h1]
  have h2 : s.reverse.dropWhile isWs = s.reverse := by
    cases hr : s.reverse with
    | nil => rfl
    | cons c t =>
      have hc : s.getLastD ' ' = c := by
        rw [← headD_reverse, hr]
        rfl
      rw [hc] at hl
      simp [List.dropWhile_cons, hl]
  rw [h2, List.reverse_reverse]

theorem splitWs_midJoin {sep : List Char} (hsepne : sep ≠ [])
    (hsepws : ∀ c ∈ sep, isWs c = true) :
    ∀ {words : List (List Char)}, words ≠ [] → (∀ w ∈ words, w ≠ []) →
      (∀ w ∈ words, ∀ c ∈ w, isWs c = false) →
      splitWs (midJoin sep words) = words := by
  intro words
  induction words with
  | nil => intro h _ _; exact absurd rfl h
  | cons w rest ih =>
    intro _ hwne hwf
    cases rest with
    | nil =>
      show splitWs (w ++ ([] : List (List Char)).flatMap (fun v => sep ++ v)) = [w]
      rw [show (([] : List (List Char)).flatMap (fun v => sep ++ v)) = [] from rfl]
      rw [splitWs_word_append (hwne w (by simp)) (hwf w (by simp)) (Or.inl rfl)]
      rfl
    | cons v vs =>
      show splitWs (w ++ (v :: vs).flatMap (fun u => sep ++ u)) = w :: v :: vs
      have hsrest : (v :: vs).flatMap (fun u => sep ++ u) =
          sep ++ midJoin sep (v :: vs) := by
        simp [midJoin, List.flatMap_cons, List.append_assoc]
      rw [hsrest]
      rw [splitWs_word_append (hwne w (by simp)) (hwf w (by simp))
        (Or.inr (by
          rw [headD_append_of_ne_nil _ hsepne ' ']
          exact hsepws _ (headD_mem ' ' hsepne)))]
      rw [if_neg (by
        simp only [List.isEmpty_iff, List.append_eq_nil]
        intro hcon
        exact hsepne hcon.1)]
      congr 1
      rw [dropWhile_append_of_all _ hsepws]
      have hmj : (midJoin sep (v :: vs)).dropWhile isWs = midJoin sep (v :: vs) := by
        have hvne := hwne v (by simp)
        have hvwf := hwf v (by simp)
        cases hv : v with
        | nil => exact absurd hv hvne
        | cons c t =>
          have hc : isWs c = false := hvwf c (by rw [hv]; simp)
          show ((c :: t) ++ vs.flatMap (fun u => sep ++ u)).dropWhile isWs = _
          rw [List.cons_append]
          rw [List.dropWhile_cons_of_neg (by simp [hc])]
          rfl
      rw [hmj]
      exact ih (by simp) (fun u hu => hwne u (by simp [hu])) (fun u hu => hwf u (by simp [hu]))

theorem trim_splitContent {ind sp : List Char} (hindws : ∀ c ∈ ind, isWs c = true)
    (hspws : ∀ c ∈ sp, isWs c = true)
    {words : List (List Char)} (hne : words ≠ [])
    (hwne : ∀ w ∈ words, w ≠ []) (hwf : ∀ w ∈ words, ∀ c ∈ w, isWs c = false) :
    trim ('\n' :: (words.flatMap (fun w => ind ++ sp ++ w ++ ['\n']) ++ ind)) =
      midJoin ('\n' :: (ind ++ sp)) words := by
  have hnlws : isWs '\n' = true := by simp [isWs]
  have hpre : ∀ c ∈ ('\n' :: (ind ++ sp) : List Char), isWs c = true := by
    intro c hc
    simp only [List.mem_cons, List.mem_append] at hc
    rcases hc with rfl | hc | hc
    · exact hnlws
    · exact hindws c hc
    · exact hspws c hc
  have hsuf : ∀ c ∈ ('\n' :: ind : List Char), isWs c = true := by
    intro c hc
    simp only [List.mem_cons] at hc
    rcases hc with rfl | hc
    · exact hnlws
    · exact hindws c hc
  have hshape : ('\n' :: (words.flatMap (fun w => ind ++ sp ++ w ++ ['\n']) ++ ind) : List Char) =
      ('\n' :: (ind ++ sp)) ++ (midJoin ('\n' :: (ind ++ sp)) words ++ ('\n' :: ind)) := by
    rw [flatMap_words_affix words hne]
    rfl
  rw [hshape, trim_append_ws_left _ hpre, trim_append_ws_right _ hsuf]
  cases hwcase : words with
  | nil => exact absurd hwcase hne
  | cons w rest =>
    subst hwcase
    apply trim_eq_self_of_ends (midJoin_ne_nil (by simp) hwne)
    · have hh : (midJoin ('\n' :: (ind ++ sp)) (w :: rest)).headD ' ' = w.headD ' ' := by
        show ((w ++ rest.flatMap (fun v => '\n' :: (ind ++ sp) ++ v)).headD ' ') = _
        exact headD_append_of_ne_nil _ (hwne w (by simp)) ' '
      rw [hh]
      exact hwf w (by simp) _ (headD_mem ' ' (hwne w (by simp)))
    · rw [midJoin_getLastD ' ' (by simp) hwne]
      have hlw : (w :: rest).getLastD [] ∈ (w :: rest) := getLastD_mem [] (by simp)
      exact hwf _ hlw _ (getLastD_mem ' ' (hwne _ hlw))

theorem calcNew_merge_position (stringInfo : StringInfo) (document : TextDocument)
    (wi off : Nat)
    (hcontent : trim stringInfo.content ≠ [])
    (hwi : wi < (splitWs (trim stringInfo.content)).length)
    (hoff : off ≤ ((splitWs (trim stringInfo.content)).getD wi []).length) :
    calculateNewCursorPosition (spanOfSplitText stringInfo document)
        (mergeString (spanOfSplitText stringInfo document) document)
        (some ⟨wi, off⟩) true =
      ⟨stringInfo.start.line,
        stringInfo.start.character + (splitQuoteOf stringInfo document).length +
          (sumEarlierWords (splitWs (trim stringInfo.content)) wi + off)⟩ := by
  have hindws : ∀ c ∈ lineIndentOf (document.lineAt stringInfo.start.line), isWs c = true := by
    intro c hc
    rw [lineIndentOf_eq_takeWhile] at hc
    exact List.mem_takeWhile_imp hc
  have hwne : ∀ w ∈ splitWs (trim stringInfo.content), w ≠ [] :=
    splitWs_chunks_ne_nil (trim stringInfo.content).length _ (le_refl _) hcontent
      (trim_head_not_ws hcontent) (trim_getLast_not_ws hcontent)
  have hwf : ∀ w ∈ splitWs (trim stringInfo.content), ∀ c ∈ w, isWs c = false :=
    splitWs_chunks_wsfree (trim stringInfo.content).length _ (le_refl _)
  have hwords_ne : splitWs (trim stringInfo.content) ≠ [] := by
    intro h
    rw [h] at hwi
    simp at hwi
  have hspws : ∀ c ∈ ([' ', ' '] : List Char), isWs c = true := by
    intro c hc
    simp only [List.mem_cons, List.not_mem_nil, or_false] at hc
    rcases hc with rfl | rfl <;> simp [isWs]
  have hsepws : ∀ c ∈ ('\n' ::
      (lineIndentOf (document.lineAt stringInfo.start.line) ++ ([' ', ' '] : List Char)) : List Char),
      isWs c = true := by
    intro c hc
    simp only [List.mem_cons, List.mem_append] at hc
    rcases hc with rfl | hc | rfl | rfl | hc
    · simp [isWs]
    · exact hindws c hc
    · simp [isWs]
    · simp [isWs]
    · simp at hc
  have htrim : trim (spanOfSplitText stringInfo document).content =
      midJoin ('\n' :: (lineIndentOf (document.lineAt stringInfo.start.line) ++ [' ', ' ']))
        (splitWs (trim stringInfo.content)) := by
    rw [spanOfSplitText_content]
    exact trim_splitContent hindws hspws hwords_ne hwne hwf
  have hsplit2 : splitWs (trim (spanOfSplitText stringInfo document).content) =
      splitWs (trim stringInfo.content) := by
    rw [htrim]
    exact splitWs_midJoin (by simp) hsepws hwords_ne hwne hwf
  unfold calculateNewCursorPosition
  dsimp only
  rw [hsplit2, filter_nonempty_words _ hcontent]
  rw [if_neg (by omega)]
  rw [min_eq_left hoff]
  rfl

/-- C9 (corrected): for a single-line string and a cursor the mapper
resolves to word `wi` at intra-word offset `off`, provided the split's
multi-line quote token is a non-blank token none of the content's words
is equal to, toggling split moves the cursor to a position that the
mapper resolves back to exactly `(wi, off)` on the produced multi-line
span, and toggling merge from there puts the cursor at the `off`-th
character of word `wi` of the single-space-normalised content, counted
from the span's start position plus the multi-line quote token's
length.  (The original claim fails without the no-word-equals-token
proviso — see the counterexample — and the merge-side offset is
measured with the multi-line token's length, not the original
quote's.) -/
theorem cursorWordMapping_roundTrip (stringInfo : StringInfo) (document : TextDocument)
    (pos : Pos) (wi off : Nat)
    (hml : stringInfo.isMultiline = false)
    (hQwf : ∀ c ∈ splitQuoteOf stringInfo document, isWs c = false)
    (hQne : splitQuoteOf stringInfo document ≠ [])
    (hline : ∀ c ∈ document.lineAt stringInfo.start.line, c ≠ '\n')
    (hnoq : ∀ w ∈ splitWs (trim stringInfo.content), w ≠ splitQuoteOf stringInfo document)
    (hwp : getCursorWordPosition stringInfo pos = some ⟨wi, off⟩) :
    getCursorWordPosition (spanOfSplitText stringInfo document)
        (calculateNewCursorPosition stringInfo (splitString stringInfo document)
          (some ⟨wi, off⟩) false) = some ⟨wi, off⟩ ∧
    calculateNewCursorPosition (spanOfSplitText stringInfo document)
        (mergeString (spanOfSplitText stringInfo document) document)
        (getCursorWordPosition (spanOfSplitText stringInfo document)
          (calculateNewCursorPosition stringInfo (splitString stringInfo document)
            (some ⟨wi, off⟩) false)) true =
      ⟨stringInfo.start.line,
        stringInfo.start.character + (splitQuoteOf stringInfo document).length +
          (sumEarlierWords (splitWs (trim stringInfo.content)) wi + off)⟩ := by
  obtain ⟨hb1, hb2, hb3⟩ := gcwp_singleLine_bounds stringInfo pos wi off hml hwp
  have hcontent : trim stringInfo.content ≠ [] := by
    intro h
    apply hb1
    rw [h]
    rfl
  rw [filter_nonempty_words _ hcontent] at hb2 hb3
  have hpos := calcNew_split_position stringInfo document wi off hcontent hQwf hQne hline hnoq
    hb2 hb3
  have hres := gcwp_of_split_position stringInfo document wi off hcontent hQwf hline hb2 hb3
  constructor
  · rw [hpos]
    exact hres
  · rw [hpos, hres]
    exact calcNew_merge_position stringInfo document wi off hcontent hb2 hb3

theorem cursorWordMapping_roundTrip_witness :
    getCursorWordPosition
        (spanOfSplitText ⟨⟨0, 10⟩, ⟨0, 19⟩, ['"'], "one two".toList, false, none⟩
          ⟨"javascript", ["const x = \"one two\";".toList]⟩)
        (calculateNewCursorPosition ⟨⟨0, 10⟩, ⟨0, 19⟩, ['"'], "one two".toList, false, none⟩
          (splitString ⟨⟨0, 10⟩, ⟨0, 19⟩, ['"'], "one two".toList, false, none⟩
            ⟨"javascript", ["const x = \"one two\";".toList]⟩)
          (some ⟨1, 1⟩) false) = some ⟨1, 1⟩ ∧
    calculateNewCursorPosition
        (spanOfSplitText ⟨⟨0, 10⟩, ⟨0, 19⟩, ['"'], "one two".toList, false, none⟩
          ⟨"javascript", ["const x = \"one two\";".toList]⟩)
        (mergeString
          (spanOfSplitText ⟨⟨0, 10⟩, ⟨0, 19⟩, ['"'], "one two".toList, false, none⟩
            ⟨"javascript", ["const x = \"one two\";".toList]⟩)
          ⟨"javascript", ["const x = \"one two\";".toList]⟩)
        (getCursorWordPosition
          (spanOfSplitText ⟨⟨0, 10⟩, ⟨0, 19⟩, ['"'], "one two".toList, false, none⟩
            ⟨"javascript", ["const x = \"one two\";".toList]⟩)
          (calculateNewCursorPosition ⟨⟨0, 10⟩, ⟨0, 19⟩, ['"'], "one two".toList, false, none⟩
            (splitString ⟨⟨0, 10⟩, ⟨0, 19⟩, ['"'], "one two".toList, false, none⟩
              ⟨"javascript", ["const x = \"one two\";".toList]⟩)
            (some ⟨1, 1⟩) false)) true =
      ⟨(0 : Nat),
        10 + (splitQuoteOf ⟨⟨0, 10⟩, ⟨0, 19⟩, ['"'], "one two".toList, false, none⟩
            ⟨"javascript", ["const x = \"one two\";".toList]⟩).length +
          (sumEarlierWords (splitWs (trim "one two".toList)) 1 + 1)⟩ :=
  cursorWordMapping_roundTrip
    ⟨⟨0, 10⟩, ⟨0, 19⟩, ['"'], "one two".toList, false, none⟩
    ⟨"javascript", ["const x = \"one two\";".toList]⟩
    ⟨0, 16⟩ 1 1 (by decide) (by decide) (by decide) (by decide) (by decide) (by decide)
